import Mathlib

/-!
Shallow embedding of `bin/luciphor_prep.py`.

Python floats are modelled as exact rationals (`ℚ`); `round(x, n)` is
half-to-even decimal rounding, `str(float)` is exact decimal rendering.
Machine-level binary-float artefacts are outside the model.  Python's
`dict` is modelled as an association list in insertion order, string
indices as codepoint (List Char) indices, and exceptions
(`KeyError`, `ValueError`, `IndexError`, `sys.exit`) as `Except`.
-/

namespace Luciphor

/-- Exceptions a run can die with. -/
inductive Err where
  | keyError
  | valueError
  | indexError
deriving DecidableEq

/-- A Python value that is either the literal `False` or a float
(the `adjusted_mass` field is initialised to `False` and later set). -/
inductive FloatOrFalse where
  | pyFalse
  | val (q : ℚ)

/-- Boolean equality on `ℚ` by numerator/denominator (the canonical form is
unique, so this decides `=`); used instead of `DecidableEq ℚ` so that
concrete runs reduce in the kernel. -/
def ratEqb (a b : ℚ) : Bool := a.num == b.num && a.den == b.den

/-- A row of `Mods.mods`: one modification definition. -/
structure Mod where
  name : String
  mass : ℚ
  adjusted_mass : FloatOrFalse
  residue : Char
  var : Bool
  pos : String
  name_lower : String

/-- line 10: the hard-coded `NON_BLOCKING_MODS` policy table. -/
def NON_BLOCKING_MODS : List (String × List String) :=
  [("GG", ["TMTpro", "TMT6plex", "iTRAQ8plex", "iTRAQ4plex"])]

/-- Models `NON_BLOCKING_MODS.get(name, [])`. -/
def nonBlockingGet (name : String) : List String :=
  ((NON_BLOCKING_MODS.find? (fun p => p.1 == name)).map (·.2)).getD []

/-- line 14: `aa_weights_monoiso` (ExPASY monoisotopic residue masses). -/
def aa_weights_monoiso : List (Char × ℚ) :=
  [ ('A', mkRat 7103711 100000),
    ('R', mkRat 15610111 100000),
    ('N', mkRat 11404293 100000),
    ('D', mkRat 11502694 100000),
    ('C', mkRat 10300919 100000),
    ('E', mkRat 12904259 100000),
    ('Q', mkRat 12805858 100000),
    ('G', mkRat 5702146 100000),
    ('H', mkRat 13705891 100000),
    ('I', mkRat 11308406 100000),
    ('L', mkRat 11308406 100000),
    ('K', mkRat 12809496 100000),
    ('M', mkRat 13104049 100000),
    ('F', mkRat 14706841 100000),
    ('P', mkRat 9705276 100000),
    ('S', mkRat 8703203 100000),
    ('T', mkRat 10104768 100000),
    ('W', mkRat 18607931 100000),
    ('Y', mkRat 16306333 100000),
    ('V', mkRat 9906841 100000),
    ('U', mkRat 150953636 1000000),
    ('O', mkRat 237147727 1000000) ]

/-- Models `aa_weights_monoiso[c]` as a fallible lookup. -/
def aaLookup (c : Char) : Option ℚ :=
  ((aa_weights_monoiso.find? (fun p => p.1 == c)).map (·.2))

/-- Association-list lookup with an explicit boolean key test
(models `d[k]` / `d.get(k)`). -/
def alistFind (eqb : κ → κ → Bool) (d : List (κ × β)) (k : κ) : Option β :=
  ((d.find? (fun p => eqb p.1 k)).map (·.2))

/-- A variant of `alistFind` with default `[]` (models `d.get(k, [])`). -/
def alistGetD (eqb : κ → κ → Bool) (d : List (κ × List β)) (k : κ) : List β :=
  (alistFind eqb d k).getD []

/-- Models `try: d[k].append(v) except KeyError: d[k] = [v]` on an insertion-ordered
dict. -/
def alistAppend (eqb : κ → κ → Bool) (d : List (κ × List β)) (k : κ) (v : β) :
    List (κ × List β) :=
  match d with
  | [] => [(k, [v])]
  | (k', l) :: rest =>
      if eqb k' k then (k', l ++ [v]) :: rest else (k', l) :: alistAppend eqb rest k v

/-- Models `d[k] = v` (overwrite or append) on an insertion-ordered dict. -/
def alistPut (eqb : κ → κ → Bool) (d : List (κ × β)) (k : κ) (v : β) :
    List (κ × β) :=
  match d with
  | [] => [(k, v)]
  | (k', v') :: rest =>
      if eqb k' k then (k', v) :: rest else (k', v') :: alistPut eqb rest k v

/-- Python `round` to an integer: half-to-even on the exact rational. -/
def pyRoundInt (q : ℚ) : ℤ :=
  let f : ℤ := q.num.fdiv q.den
  let r : ℤ := q.num - f * q.den
  if 2 * r < (q.den : ℤ) then f
  else if 2 * r > (q.den : ℤ) then f + 1
  else if f % 2 = 0 then f else f + 1

/-- Python `round(q, n)`: half-to-even at `n` decimal digits. -/
def pyRound (n : ℕ) (q : ℚ) : ℚ := mkRat (pyRoundInt (q * mkRat (10 ^ n) 1)) (10 ^ n)

/-- Decimal digit character. -/
def digitChar (n : ℕ) : Char := Char.ofNat (48 + n)

/-- Decimal digits of a natural number, most significant first (fuelled). -/
def natDigitsAux : ℕ → ℕ → List Char
  | 0, _ => []
  | fuel+1, n =>
      if n < 10 then [digitChar n]
      else natDigitsAux fuel (n / 10) ++ [digitChar (n % 10)]

/-- Python `str` of a natural number. -/
def pyStrNat (n : ℕ) : String := ⟨natDigitsAux (n + 1) n⟩

/-- Python `str` of an integer. -/
def pyStrInt (i : ℤ) : String :=
  if i < 0 then "-" ++ pyStrNat i.natAbs else pyStrNat i.natAbs

/-- Number of decimal places of a rational whose denominator divides a
power of ten (the only rationals the pipeline produces). -/
def decExp (q : ℚ) : ℕ :=
  (((List.range 28).find? (fun k => (q * mkRat (10 ^ k) 1).den == 1)).getD 27)

/-- Zero-padded decimal rendering of `n` to exactly `k` digits. -/
def padZeros (k : ℕ) (n : ℕ) : String :=
  let s := pyStrNat n
  ⟨List.replicate (k - s.data.length) '0' ++ s.data⟩

/-- Python `str` of a float, on the exact-decimal model
(e.g. `strOfRat (mkRat 105 10) = "10.5"`, integers render with `".0"`). -/
def strOfRat (q : ℚ) : String :=
  let k := decExp q
  let m : ℤ := (q * mkRat (10 ^ k) 1).num
  let a : ℕ := m.natAbs
  let sign : String := if m < 0 then "-" else ""
  if k = 0 then sign ++ pyStrNat a ++ ".0"
  else sign ++ pyStrNat (a / 10 ^ k) ++ "." ++ padZeros k (a % 10 ^ k)

/-- Python `sep.join(xs)`. -/
def pyJoin (sep : String) : List String → String
  | [] => ""
  | [x] => x
  | x :: y :: rest => x ++ sep ++ pyJoin sep (y :: rest)

/-- Python `s.upper()` (ASCII). -/
def pyUpper (s : String) : String := ⟨s.data.map Char.toUpper⟩

/-- Python slice `l[a:b]` (for the non-negative indices used here). -/
def pySlice (l : List Char) (a b : ℕ) : List Char := (l.take b).drop a

/-- Value of a digit string as a natural number (decimal). -/
def digitsVal (ds : List Char) : ℕ := ds.foldl (fun acc c => acc * 10 + (c.toNat - 48)) 0

/-- Python `float` on a simple decimal string (optional sign, digits,
at most one dot, at least one digit); `none` models `ValueError`. -/
def pyFloat (cs : List Char) : Option ℚ :=
  let (sign, body) : ℤ × List Char :=
    match cs with
    | '+' :: r => (1, r)
    | '-' :: r => (-1, r)
    | r => (1, r)
  let intPart := body.takeWhile Char.isDigit
  let rest := body.dropWhile Char.isDigit
  match rest with
  | [] => if intPart.isEmpty then none else some (mkRat (sign * digitsVal intPart) 1)
  | '.' :: frac =>
      if frac.all Char.isDigit && !(intPart.isEmpty && frac.isEmpty) then
        some (mkRat (sign * (digitsVal intPart * 10 ^ frac.length + digitsVal frac)) (10 ^ frac.length))
      else none
  | _ => none

/-- lines 100-110 of `Mods.parse_msgf_modfile`: group the fixed definitions
by residue, in list order (`fixedpos`). -/
def buildFixedpos (mods : List Mod) : List (Char × List Mod) :=
  (mods.filter (fun m => !m.var)).foldl (fun d m => alistAppend (· == ·) d m.residue m) []

/-- lines 117-120: `adjustment` for one variable mod: sum the masses of the
fixed mods on its residue whose name is not in its non-blocking list. -/
def adjustmentOf (fixedpos : List (Char × List Mod)) (m : Mod) : ℚ :=
  (alistGetD (· == ·) fixedpos m.residue).foldl
    (fun acc fmod => if fmod.name ∈ nonBlockingGet m.name then acc else acc + fmod.mass) 0

/-- lines 112-121 of `Mods.parse_msgf_modfile`: set
`adjusted_mass = round(-(adjustment - mass), 5)` on every variable mod. -/
def adjust_masses (mods : List Mod) : List Mod :=
  let fixedpos := buildFixedpos mods
  mods.map (fun m =>
    if m.var then
      { m with adjusted_mass := .val (pyRound 5 (-(adjustmentOf fixedpos m - m.mass))) }
    else m)

/-- Models `Mods.varmods` (insertion-ordered partition of lines 101-105). -/
def varmods (mods : List Mod) : List Mod := mods.filter (·.var)

/-- Models `Mods.fixedmods`. -/
def fixedmods (mods : List Mod) : List Mod := mods.filter (fun m => !m.var)

/-- Models `Mods.get_mass_or_adj`: `mod['adjusted_mass'] or mod['mass']` — Python
truthiness, so both the `False` sentinel and an adjusted mass of `0.0`
fall back to the raw mass. -/
def get_mass_or_adj (m : Mod) : ℚ :=
  match m.adjusted_mass with
  | .pyFalse => m.mass
  | .val a => if ratEqb a 0 then m.mass else a

/-- Models `Mods.get_luci_input_mod_line`. -/
def get_luci_input_mod_line (m : Mod) : String :=
  let residue : String :=
    if m.pos == "N-term" then "["
    else if m.pos == "C-term" then "]"
    else ⟨[m.residue]⟩
  residue ++ " " ++ strOfRat (get_mass_or_adj m)

/-- Models `Mods.msgfmass_mod_dict`: MSGF mass `round(x, 3)` → list of mods. -/
def msgfmass_mod_dict (mods : List Mod) : List (ℚ × List Mod) :=
  mods.foldl (fun d m => alistAppend ratEqb d (pyRound 3 (get_mass_or_adj m)) m) []

/-- The key `f'{residue}{round(aa + mass)}'` of `Mods.lucimass_mod_dict`,
given the residue weight `w`. -/
def luciKey (m : Mod) (w : ℚ) : String :=
  ⟨[m.residue]⟩ ++ pyStrInt (pyRoundInt (w + get_mass_or_adj m))

/-- One iteration of the `Mods.lucimass_mod_dict` loop:
`modmap[f'{residue}{round(aa + mass)}'] = mod`, with the `KeyError` of
`aa_weights_monoiso[residue]` for a residue without a standard weight. -/
def luciDictStep (d : List (String × Mod)) (m : Mod) : Except Err (List (String × Mod)) :=
  match aaLookup m.residue with
  | none => .error .keyError
  | some w => .ok (alistPut (· == ·) d (luciKey m w) m)

/-- Models `Mods.lucimass_mod_dict` (the loop of lines 175-182). -/
def lucimass_mod_dict (mods : List Mod) : Except Err (List (String × Mod)) :=
  (varmods mods).foldlM luciDictStep []

/-- The result of `PSM.get_modtype`. -/
inductive ModType where
  | fixed
  | labile
  | stable
  | variab
deriving DecidableEq

/-- Models `PSM.get_modtype`: fixed/labile/stable/plain-variable classification. -/
def get_modtype (m : Mod) (labileptmnames stableptmnames : List String) : ModType :=
  if !m.var then .fixed
  else if m.name_lower ∈ labileptmnames then .labile
  else if m.name_lower ∈ stableptmnames then .stable
  else .variab

/-- One entry of `PSM.mods` (an observed modification on a site).
`adjusted_mass` is `none` for mods built by `parse_luciphor_peptide`,
whose dicts carry no such key. -/
structure ObsMod where
  site : Char × ℤ
  type : ModType
  mass : ℚ
  name : String
  name_lower : String
  adjusted_mass : Option FloatOrFalse

/-- One match of `re.finditer('([A-Z]){0,1}([0-9\.+\-]+)', msgfseq)`. -/
structure MsgfMatch where
  mstart : ℕ
  mend : ℕ
  res : Option Char
  g2 : List Char

/-- Character class `[0-9\.+\-]`. -/
def isMassChar (c : Char) : Bool := c.isDigit || c == '.' || c == '+' || c == '-'

/-- Leftmost non-overlapping matches of `([A-Z]){0,1}([0-9\.+\-]+)`
(fuelled scan; `msgfFind` supplies enough fuel). -/
def msgfFindAux : ℕ → List Char → ℕ → List MsgfMatch
  | 0, _, _ => []
  | _+1, [], _ => []
  | fuel+1, c :: rest, i =>
      if c.isUpper && (rest.head?.map isMassChar).getD false then
        let g2 := rest.takeWhile isMassChar
        { mstart := i, mend := i + 1 + g2.length, res := some c, g2 := g2 } ::
          msgfFindAux fuel (rest.dropWhile isMassChar) (i + 1 + g2.length)
      else if isMassChar c then
        let g2 := c :: rest.takeWhile isMassChar
        { mstart := i, mend := i + g2.length, res := none, g2 := g2 } ::
          msgfFindAux fuel (rest.dropWhile isMassChar) (i + g2.length)
      else msgfFindAux fuel rest (i + 1)

/-- Models `re.finditer('([A-Z]){0,1}([0-9\.+\-]+)', s)`. -/
def msgfFind (s : List Char) : List MsgfMatch := msgfFindAux (s.length + 1) s 0

/-- Character class `[0-9.]`. -/
def isDigitDot (c : Char) : Bool := c.isDigit || c == '.'

/-- Leftmost non-overlapping matches of `[\+\-][0-9.]+` (fuelled). -/
def findTokensAux : ℕ → List Char → List (List Char)
  | 0, _ => []
  | _+1, [] => []
  | fuel+1, c :: rest =>
      if (c == '+' || c == '-') && (rest.head?.map isDigitDot).getD false then
        (c :: rest.takeWhile isDigitDot) :: findTokensAux fuel (rest.dropWhile isDigitDot)
      else findTokensAux fuel rest

/-- Models `re.findall('[\+\-][0-9.]+', g2)`. -/
def findTokens (g2 : List Char) : List (List Char) := findTokensAux (g2.length + 1) g2

/-- State of the `parse_msgf_peptide` loop: accumulated bare peptide,
slice cursor `start`, and collected mods. -/
structure MsgfState where
  barepep : List Char
  start : ℕ
  mods : List ObsMod

/-- lines 211-217 of `PSM.parse_msgf_peptide`: resolve and record the mass
tokens of one match (`msgf_mods[float(mass)][0]`). -/
def msgfTokenStep (msgf_mods : List (ℚ × List Mod)) (labileptmnames stableptmnames : List String)
    (site : Char × ℤ) (mods : List ObsMod) (tok : List Char) : Except Err (List ObsMod) :=
  match pyFloat tok with
  | none => .error .valueError
  | some v =>
      match alistFind ratEqb msgf_mods v with
      | none => .error .keyError
      | some [] => .error .indexError
      | some (m :: _) =>
          .ok (mods ++ [{ site := site, type := get_modtype m labileptmnames stableptmnames,
                          mass := m.mass, name := m.name, name_lower := m.name_lower,
                          adjusted_mass := some m.adjusted_mass }])

/-- The body of the `re.finditer` loop of `PSM.parse_msgf_peptide`
(lines 200-217). -/
def msgfStep (msgfseq : List Char) (msgf_mods : List (ℚ × List Mod))
    (labileptmnames stableptmnames : List String) (st : MsgfState) (x : MsgfMatch) :
    Except Err MsgfState :=
  match x.res with
  | some _ =>
      let barepep := st.barepep ++ pySlice msgfseq st.start (x.mstart + 1)
      match barepep.getLast? with
      | none => .error .indexError
      | some residue =>
          let site : Char × ℤ := (residue, (barepep.length : ℤ) - 1)
          match (findTokens x.g2).foldlM
              (msgfTokenStep msgf_mods labileptmnames stableptmnames site) st.mods with
          | .error e => .error e
          | .ok mods => .ok { barepep := barepep, start := x.mend, mods := mods }
  | none =>
      let site : Char × ℤ := ('[', -100)
      match (findTokens x.g2).foldlM
          (msgfTokenStep msgf_mods labileptmnames stableptmnames site) st.mods with
      | .error e => .error e
      | .ok mods => .ok { barepep := st.barepep, start := x.mend, mods := mods }

/-- Result of a peptide parse: the mod list and the final sequence. -/
structure ParsedPSM where
  mods : List ObsMod
  sequence : List Char

/-- Models `PSM.parse_msgf_peptide` (lines 195-218). -/
def parse_msgf_peptide (msgfseq : List Char) (msgf_mods : List (ℚ × List Mod))
    (labileptmnames stableptmnames : List String) : Except Err ParsedPSM :=
  match (msgfFind msgfseq).foldlM
      (msgfStep msgfseq msgf_mods labileptmnames stableptmnames)
      { barepep := [], start := 0, mods := [] } with
  | .error e => .error e
  | .ok st => .ok { mods := st.mods, sequence := st.barepep ++ pySlice msgfseq st.start msgfseq.length }

/-- Models `PSM.has_labileptms`. -/
def has_labileptms (mods : List ObsMod) : Bool :=
  mods.any (fun m => m.type == ModType.labile)

/-- Models `PSM.has_stableptms`. -/
def has_stableptms (mods : List ObsMod) : Bool :=
  mods.any (fun m => m.type == ModType.stable)

/-- Left-to-right effectful map over `Except` (a Python `for` loop that
appends one result per element and propagates the first exception). -/
def mapExcept (f : α → Except Err β) : List α → Except Err (List β)
  | [] => .ok []
  | x :: xs =>
      match f x with
      | .error e => .error e
      | .ok y =>
          match mapExcept f xs with
          | .error e => .error e
          | .ok ys => .ok (y :: ys)

/-- One appended tuple of the `PSM.luciphor_input_sites` loop:
`(m['site'][1], str(m['mass'] + aa_weights_monoiso[m['site'][0]]))`,
with the `KeyError` of an unknown residue. -/
def luciSiteEntry (m : ObsMod) : Except Err (ℤ × String) :=
  match aaLookup m.site.1 with
  | none => .error .keyError
  | some w => .ok (m.site.2, strOfRat (m.mass + w))

/-- Models `PSM.luciphor_input_sites` (lines 272-277): every non-fixed mod becomes
`f'{sitenum}={mass + aa_weights_monoiso[residue]}'`, comma-joined. -/
def luciphor_input_sites (mods : List ObsMod) : Except Err String :=
  match mapExcept luciSiteEntry (mods.filter (fun m => m.type != ModType.fixed)) with
  | .error e => .error e
  | .ok lucimods => .ok (pyJoin "," (lucimods.map (fun x => pyStrInt x.1 ++ "=" ++ x.2)))

/-- lines 380-381 of `main`: the second-tool input rows one parsed PSM
contributes (its `modSites` field, when it carries a labile mod). -/
def luciRows (mods : List ObsMod) : List (Except Err String) :=
  if has_labileptms mods then [luciphor_input_sites mods] else []

/-- Match `\[[0-9]+\]` at the head of the list: returns the digit group and
the remainder after `]`. -/
def tryBracket (l : List Char) : Option (List Char × List Char) :=
  match l with
  | c :: r =>
      let ds := r.takeWhile Char.isDigit
      let rest := r.dropWhile Char.isDigit
      if c = '[' ∧ ds ≠ [] ∧ rest.head? = some ']' then some (ds, rest.tail) else none
  | [] => none

/-- One match of `re.finditer('([A-Z]){0,1}\[([0-9]+)\]', modpep)`. -/
structure LuciMatch where
  mstart : ℕ
  mend : ℕ
  res : Option Char
  ds : List Char

/-- Leftmost non-overlapping matches of `([A-Z]){0,1}\[([0-9]+)\]`
(fuelled scan; `luciFind` supplies enough fuel). -/
def luciFindAux : ℕ → List Char → ℕ → List LuciMatch
  | 0, _, _ => []
  | _+1, [], _ => []
  | fuel+1, c :: rest, i =>
      if c.isUpper then
        match tryBracket rest with
        | some (ds, rest') =>
            { mstart := i, mend := i + 1 + ds.length + 2, res := some c, ds := ds } ::
              luciFindAux fuel rest' (i + 1 + ds.length + 2)
        | none => luciFindAux fuel rest (i + 1)
      else
        match tryBracket (c :: rest) with
        | some (ds, rest') =>
            { mstart := i, mend := i + ds.length + 2, res := none, ds := ds } ::
              luciFindAux fuel rest' (i + ds.length + 2)
        | none => luciFindAux fuel rest (i + 1)

/-- Models `re.finditer('([A-Z]){0,1}\[([0-9]+)\]', s)`. -/
def luciFind (s : List Char) : List LuciMatch := luciFindAux (s.length + 1) s 0

/-- The dict key `f'{x.group(1)}{int(x.group(2))}'` of line 245 (a missing
group renders as the literal string `None`, as in Python). -/
def luciMatchKey (x : LuciMatch) : String :=
  (match x.res with
   | some c => (⟨[c]⟩ : String)
   | none => "None") ++ pyStrNat (digitsVal x.ds)

/-- State of the `parse_luciphor_peptide` loop. -/
structure LuciState where
  barepep : List Char
  start : ℕ
  mods : List ObsMod

/-- The body of the `re.finditer` loop of `PSM.parse_luciphor_peptide`
(lines 241-252): extend the bare peptide, resolve the bracketed mass via
`ptms_map`, and record an observed mod only when the resolved definition
is labile. -/
def luciStep (modpep : List Char) (ptms_map : List (String × Mod))
    (labileptms stabileptms : List String) (st : LuciState) (x : LuciMatch) :
    Except Err LuciState :=
  let barepep :=
    match x.res with
    | some _ => st.barepep ++ pySlice modpep st.start (x.mstart + 1)
    | none => st.barepep
  match alistFind (· == ·) ptms_map (luciMatchKey x) with
  | none => .error .keyError
  | some ptm =>
      if ptm.name_lower ∈ labileptms then
        let sitenum : ℤ := if barepep.length ≠ 0 then (barepep.length : ℤ) - 1 else -100
        let residue : Char := (barepep.getLast?).getD '['
        .ok { barepep := barepep, start := x.mend,
              mods := st.mods ++ [{ site := (residue, sitenum),
                                    type := get_modtype ptm labileptms stabileptms,
                                    mass := ptm.mass, name := ptm.name,
                                    name_lower := ptm.name_lower, adjusted_mass := none }] }
      else
        .ok { barepep := barepep, start := x.mend, mods := st.mods }

/-- Models `re.sub(r'([A-Z])\[[0-9]+\]', lambda x: x.group(1).lower(), modpep)`
(line 254), fuelled scan. -/
def scoreFmtAux : ℕ → List Char → List Char
  | 0, _ => []
  | _+1, [] => []
  | fuel+1, c :: rest =>
      if c.isUpper then
        match tryBracket rest with
        | some (_, rest') => c.toLower :: scoreFmtAux fuel rest'
        | none => c :: scoreFmtAux fuel rest
      else c :: scoreFmtAux fuel rest

/-- The score-permutation form `seq_in_scorepep_fmt` of line 254. -/
def scoreFmt (modpep : List Char) : List Char := scoreFmtAux (modpep.length + 1) modpep

/-- Models `PSM.parse_luciphor_peptide` (lines 238-254), restricted to the fields
the later steps read: the observed mods, the bare sequence, and the
score-permutation form. -/
def parse_luciphor_peptide (modpep : List Char) (ptms_map : List (String × Mod))
    (labileptms stabileptms : List String) :
    Except Err (ParsedPSM × List Char) :=
  match (luciFind modpep).foldlM
      (luciStep modpep ptms_map labileptms stabileptms)
      { barepep := [], start := 0, mods := [] } with
  | .error e => .error e
  | .ok st =>
      .ok ({ mods := st.mods, sequence := st.barepep ++ pySlice modpep st.start modpep.length },
           scoreFmt modpep)

/-- The candidate row consumed by `PSM.parse_luciphor_scores`:
`curPermutation` and the (textual) `score` column. -/
structure ScorePep where
  curPermutation : List Char
  score : List Char

/-- The site labels one candidate permutation contributes (line 259):
`f'{x.group()}{x.start() + 1}:{score}'` for every `[a-z]` match. -/
def altEntries (sp : ScorePep) : List String :=
  (sp.curPermutation.enum.filter (fun p => p.2.isLower)).map
    (fun p => (⟨[p.2]⟩ : String) ++ pyStrNat (p.1 + 1) ++ ":" ++ (⟨sp.score⟩ : String))

/-- Models `PSM.parse_luciphor_scores` (lines 256-260) acting on the
`alt_ptm_locs` accumulator; Python's `and` short-circuits, so `float` is
only called when the permutation differs from the canonical form. -/
def parse_luciphor_scores (seq_in_scorepep_fmt : List Char) (alt_ptm_locs : List (List String))
    (sp : ScorePep) (minscore : ℚ) : Except Err (List (List String)) :=
  if sp.curPermutation ≠ seq_in_scorepep_fmt then
    match pyFloat sp.score with
    | none => .error .valueError
    | some v =>
        if v > minscore then .ok (alt_ptm_locs ++ [altEntries sp])
        else .ok alt_ptm_locs
  else .ok alt_ptm_locs

/-- Models `PSM.format_alt_ptm_locs` (lines 262-264). -/
def format_alt_ptm_locs (alt_ptm_locs : List (List String)) : String :=
  let alt_locs := alt_ptm_locs.map (fun x => pyUpper (pyJoin "," x))
  if alt_locs.length ≠ 0 then pyJoin ";" alt_locs else "NA"

/-- Spec-side notion for C1: the sum of the masses of the fixed
definitions on `m`'s residue whose name is not non-blocking for `m`. -/
def blockingMass (mods : List Mod) (m : Mod) : ℚ :=
  ((((fixedmods mods).filter (fun f => f.residue == m.residue)).filter
      (fun f => !(decide (f.name ∈ nonBlockingGet m.name)))).map (·.mass)).sum

/-- Structured second-tool peptide shape for C5: a run of plain
characters and `Residue[digits]` groups. -/
inductive LTok where
  | plain (c : Char)
  | modded (c : Char) (ds : List Char)

/-- Render one token back to its textual form. -/
def renderTok : LTok → List Char
  | .plain c => [c]
  | .modded c ds => c :: '[' :: (ds ++ [']'])

/-- Render a token list to a peptide string. -/
def renderToks (ts : List LTok) : List Char := ts.flatMap renderTok

/-- The score-permutation image of one token as the spec describes it:
a bracketed-mass residue becomes its lowercase letter alone, any other
character is untouched. -/
def fmtTok : LTok → List Char
  | .plain c => [c]
  | .modded c _ => [c.toLower]

/-- Well-formedness of a token: plain characters are letters, a modded
group has an uppercase residue and a non-empty digit run. -/
def wfTok : LTok → Prop
  | .plain c => c.isAlpha = true
  | .modded c ds => c.isUpper = true ∧ ds ≠ [] ∧ ds.all Char.isDigit = true

/-- Fixture: a fixed test modification on `S` (mass 10). -/
def exTMT : Mod :=
  { name := "TMT6plex", mass := mkRat 10 1, adjusted_mass := .pyFalse,
    residue := 'S', var := false, pos := "any", name_lower := "tmt6plex" }

/-- Fixture: a variable (labile) phospho modification on `S`. -/
def exPhos : Mod :=
  { name := "Phospho", mass := mkRat 7996633 100000, adjusted_mass := .pyFalse,
    residue := 'S', var := true, pos := "any", name_lower := "phospho" }

/-- Fixture: a variable (stable) oxidation modification on `M`. -/
def exOx : Mod :=
  { name := "Oxidation", mass := mkRat 1599491 100000, adjusted_mass := .pyFalse,
    residue := 'M', var := true, pos := "any", name_lower := "oxidation" }

/-- Fixture: the finalized catalog of the three fixtures. -/
def exCat : List Mod := adjust_masses [exTMT, exPhos, exOx]

/-- Fixture: the first-tool lookup of `exCat`. -/
def exMap : List (ℚ × List Mod) := msgfmass_mod_dict exCat

/-- Fixture: a variable modification with more than five decimal places. -/
def exTiny : Mod :=
  { name := "Tiny", mass := mkRat 1 1000000, adjusted_mass := .pyFalse,
    residue := 'S', var := true, pos := "any", name_lower := "tiny" }

/-- Fixture: a variable modification whose adjusted mass is exactly 0.0
(its mass equals the blocking fixed mass it competes with). -/
def exZero : Mod :=
  { name := "Zed", mass := mkRat 5 1, adjusted_mass := .val 0,
    residue := 'S', var := true, pos := "any", name_lower := "zed" }

/-- Fixture: a variable N-terminal-style modification (no target residue
restriction matters here; the delta token appears with no preceding
residue in the PSM). -/
def exNt : Mod :=
  { name := "Acetyl", mass := mkRat 4201 100, adjusted_mass := .pyFalse,
    residue := 'K', var := true, pos := "any", name_lower := "acetyl" }

/-- Fixture: the labile observed Phospho on `S` at index 0, as parsed from
`S+69.966` against the finalized example catalog. -/
def exObsPhos : ObsMod :=
  { site := ('S', 0), type := ModType.labile, mass := mkRat 7996633 100000,
    name := "Phospho", name_lower := "phospho",
    adjusted_mass := some (FloatOrFalse.val (mkRat 6996633 100000)) }

/-- Fixture: the stable observed Oxidation on `M` at index 1, as parsed
from `M+15.995` against the finalized example catalog. -/
def exObsOx : ObsMod :=
  { site := ('M', 1), type := ModType.stable, mass := mkRat 1599491 100000,
    name := "Oxidation", name_lower := "oxidation",
    adjusted_mass := some (FloatOrFalse.val (mkRat 1599491 100000)) }

/-- Fixture: the observed protein-N-terminal labile mod parsed from a
`+42.01` delta token with no preceding residue. -/
def exNtObs : ObsMod :=
  { site := ('[', -100), type := ModType.labile, mass := mkRat 4201 100,
    name := "Acetyl", name_lower := "acetyl",
    adjusted_mass := some (FloatOrFalse.val (mkRat 4201 100)) }

/-- Fixture: first of two distinct-name mods sharing a 3-decimal mass. -/
def exA : Mod :=
  { name := "Alpha", mass := mkRat 10101 10000, adjusted_mass := .pyFalse,
    residue := 'K', var := false, pos := "any", name_lower := "alpha" }

/-- Fixture: second of two distinct-name mods sharing a 3-decimal mass. -/
def exB : Mod :=
  { name := "Beta", mass := mkRat 10102 10000, adjusted_mass := .pyFalse,
    residue := 'K', var := false, pos := "any", name_lower := "beta" }

/-- Boolean equality on `FloatOrFalse`. -/
def beqFF : FloatOrFalse → FloatOrFalse → Bool
  | .pyFalse, .pyFalse => true
  | .val a, .val b => ratEqb a b
  | _, _ => false

/-- Boolean equality on `Mod`. -/
def beqMod (a b : Mod) : Bool :=
  a.name == b.name && ratEqb a.mass b.mass && beqFF a.adjusted_mass b.adjusted_mass &&
    a.residue == b.residue && a.var == b.var && a.pos == b.pos && a.name_lower == b.name_lower

/-- Boolean equality on `ObsMod`. -/
def beqObs (a b : ObsMod) : Bool :=
  a.site.1 == b.site.1 && a.site.2 == b.site.2 && a.type == b.type && ratEqb a.mass b.mass &&
    a.name == b.name && a.name_lower == b.name_lower &&
    (match a.adjusted_mass, b.adjusted_mass with
     | none, none => true
     | some x, some y => beqFF x y
     | _, _ => false)

/-- Boolean equality lifted to lists. -/
def beqList (f : α → α → Bool) : List α → List α → Bool
  | [], [] => true
  | x :: xs, y :: ys => f x y && beqList f xs ys
  | _, _ => false

/-- Boolean equality lifted to `Option`. -/
def beqOption (f : α → α → Bool) : Option α → Option α → Bool
  | none, none => true
  | some x, some y => f x y
  | _, _ => false

/-- Boolean equality lifted to `Except Err`. -/
def beqExcept (f : α → α → Bool) : Except Err α → Except Err α → Bool
  | .error e, .error e' => e == e'
  | .ok x, .ok y => f x y
  | _, _ => false

/-- Boolean equality on `ParsedPSM`. -/
def beqParsed (a b : ParsedPSM) : Bool :=
  beqList beqObs a.mods b.mods && a.sequence == b.sequence

/-- Invariant of the `lucimass_mod_dict` fold: every stored value is a
variable definition of the catalog stored under its own key. -/
def luciInv (mods : List Mod) (d : List (String × Mod)) : Prop :=
  ∀ k m', alistFind (· == ·) d k = some m' →
    m' ∈ varmods mods ∧ ∃ w', aaLookup m'.residue = some w' ∧ k = luciKey m' w'

theorem ratEqb_iff {a b : ℚ} : ratEqb a b = true ↔ a = b := by
  constructor
  · intro h
    simp only [ratEqb, Bool.and_eq_true, beq_iff_eq] at h
    exact Rat.ext h.1 h.2
  · intro h
    subst h
    simp [ratEqb]

theorem ratEqb_eq {a b : ℚ} (h : ratEqb a b = true) : a = b := ratEqb_iff.mp h

theorem ratEqb_ne {a b : ℚ} (h : ratEqb a b = false) : a ≠ b := by
  intro he
  rw [he] at h
  simp [ratEqb] at h

theorem beqFF_eq : ∀ {x y : FloatOrFalse}, beqFF x y = true → x = y := by
  intro x y h
  cases x <;> cases y <;> simp [beqFF] at h ⊢
  exact ratEqb_eq h

theorem beqMod_eq : ∀ {a b : Mod}, beqMod a b = true → a = b := by
  intro a b h
  cases a; cases b
  simp only [beqMod, Bool.and_eq_true, beq_iff_eq] at h
  obtain ⟨⟨⟨⟨⟨⟨h1, h2⟩, h3⟩, h4⟩, h5⟩, h6⟩, h7⟩ := h
  simp_all [Mod.mk.injEq, ratEqb_eq h2, beqFF_eq h3]

theorem beqObs_eq : ∀ {a b : ObsMod}, beqObs a b = true → a = b := by
  intro a b h
  cases a with
  | mk sa ta ma na la aa =>
  cases b with
  | mk sb tb mb nb lb ab =>
  obtain ⟨sa1, sa2⟩ := sa
  obtain ⟨sb1, sb2⟩ := sb
  simp only [beqObs, Bool.and_eq_true, beq_iff_eq] at h
  obtain ⟨⟨⟨⟨⟨⟨h1, h2⟩, h3⟩, h4⟩, h5⟩, h6⟩, h7⟩ := h
  have hm : ma = mb := ratEqb_eq h4
  have ha : aa = ab := by
    cases aa <;> cases ab <;> simp_all
    exact beqFF_eq h7
  simp_all [ObsMod.mk.injEq]

theorem beqList_eq {f : α → α → Bool} (hf : ∀ {a b : α}, f a b = true → a = b) :
    ∀ {xs ys : List α}, beqList f xs ys = true → xs = ys := by
  intro xs
  induction xs with
  | nil => intro ys h; cases ys <;> simp_all [beqList]
  | cons x xs ih =>
      intro ys h
      cases ys with
      | nil => simp [beqList] at h
      | cons y ys =>
          simp only [beqList, Bool.and_eq_true] at h
          rw [hf h.1, ih h.2]

theorem beqOption_eq {f : α → α → Bool} (hf : ∀ {a b : α}, f a b = true → a = b) :
    ∀ {x y : Option α}, beqOption f x y = true → x = y := by
  intro x y h
  cases x <;> cases y <;> simp_all [beqOption]
  exact hf h

theorem beqExcept_eq {f : α → α → Bool} (hf : ∀ {a b : α}, f a b = true → a = b) :
    ∀ {x y : Except Err α}, beqExcept f x y = true → x = y := by
  intro x y h
  cases x <;> cases y <;> simp_all [beqExcept]
  exact hf h

theorem beqParsed_eq : ∀ {a b : ParsedPSM}, beqParsed a b = true → a = b := by
  intro a b h
  cases a; cases b
  simp only [beqParsed, Bool.and_eq_true, beq_iff_eq] at h
  simp_all [ParsedPSM.mk.injEq, beqList_eq (fun h => beqObs_eq h) h.1]

theorem eqb_false_of_ne {eqb : κ → κ → Bool} (heqb : ∀ a b, eqb a b = true ↔ a = b)
    {a b : κ} (h : a ≠ b) : eqb a b = false := by
  cases he : eqb a b with
  | true => exact absurd ((heqb a b).mp he) h
  | false => rfl

theorem alistFind_append [DecidableEq κ] {eqb : κ → κ → Bool}
    (heqb : ∀ a b, eqb a b = true ↔ a = b)
    (d : List (κ × List β)) (k k' : κ) (v : β) :
    alistFind eqb (alistAppend eqb d k v) k' =
      if k' = k then some (alistGetD eqb d k ++ [v]) else alistFind eqb d k' := by
  induction d with
  | nil =>
      by_cases h : k' = k
      · simp [alistAppend, alistFind, alistGetD, List.find?, h, (heqb k k).mpr rfl]
      · simp [alistAppend, alistFind, alistGetD, List.find?, h,
          eqb_false_of_ne heqb (fun he => h he.symm)]
  | cons p rest ih =>
      obtain ⟨ka, l⟩ := p
      by_cases hh : eqb ka k = true
      · have hk : ka = k := (heqb ka k).mp hh
        by_cases h : k' = k
        · simp [alistAppend, hh, alistFind, alistGetD, List.find?, h, hk,
            (heqb k k).mpr rfl]
        · have h1 : eqb ka k' = false :=
            eqb_false_of_ne heqb (fun he => h (hk ▸ he).symm)
          simp [alistAppend, hh, alistFind, alistGetD, List.find?, h, h1]
      · have hne : ka ≠ k := fun he => hh ((heqb ka k).mpr he)
        have hstep : alistAppend eqb ((ka, l) :: rest) k v =
            (ka, l) :: alistAppend eqb rest k v := by simp [alistAppend, hh]
        rw [hstep]
        have hgd : alistGetD eqb ((ka, l) :: rest) k = alistGetD eqb rest k := by
          simp [alistGetD, alistFind, List.find?, hh, Bool.eq_false_iff.mpr hh]
        by_cases h : k' = ka
        · have h1 : eqb ka k' = true := (heqb ka k').mpr h.symm
          have h2 : k' ≠ k := fun he => hne (h ▸ he)
          simp [alistFind, List.find?, h1, h2]
        · have h1 : eqb ka k' = false := eqb_false_of_ne heqb (fun he => h he.symm)
          have h3 : alistFind eqb ((ka, l) :: rest) k' = alistFind eqb rest k' := by
            simp [alistFind, List.find?, h1]
          rw [hgd, h3]
          have h4 : alistFind eqb ((ka, l) :: alistAppend eqb rest k v) k' =
              alistFind eqb (alistAppend eqb rest k v) k' := by
            simp [alistFind, List.find?, h1]
          rw [h4, ih]

theorem alistGetD_append [DecidableEq κ] {eqb : κ → κ → Bool}
    (heqb : ∀ a b, eqb a b = true ↔ a = b)
    (d : List (κ × List β)) (k k' : κ) (v : β) :
    alistGetD eqb (alistAppend eqb d k v) k' =
      if k' = k then alistGetD eqb d k ++ [v] else alistGetD eqb d k' := by
  by_cases h : k' = k <;> simp [alistGetD, alistFind_append heqb, h]

theorem alistGetD_foldlAppend [DecidableEq κ] {eqb : κ → κ → Bool}
    (heqb : ∀ a b, eqb a b = true ↔ a = b)
    (key : α → κ) (xs : List α) (d : List (κ × List α)) (k : κ) :
    alistGetD eqb (xs.foldl (fun d x => alistAppend eqb d (key x) x) d) k =
      alistGetD eqb d k ++ xs.filter (fun x => eqb (key x) k) := by
  induction xs generalizing d with
  | nil => simp
  | cons x xs ih =>
      rw [List.foldl_cons, ih, alistGetD_append heqb]
      by_cases h : k = key x
      · subst h
        simp [(heqb (key x) (key x)).mpr rfl, List.filter_cons]
      · have h1 : eqb (key x) k = false := eqb_false_of_ne heqb (fun he => h he.symm)
        simp [h, h1, List.filter_cons]

theorem alistFind_put [DecidableEq κ] {eqb : κ → κ → Bool}
    (heqb : ∀ a b, eqb a b = true ↔ a = b)
    (d : List (κ × β)) (k k' : κ) (v : β) :
    alistFind eqb (alistPut eqb d k v) k' =
      if k' = k then some v else alistFind eqb d k' := by
  induction d with
  | nil =>
      by_cases h : k' = k
      · simp [alistPut, alistFind, List.find?, h, (heqb k k).mpr rfl]
      · simp [alistPut, alistFind, List.find?, h,
          eqb_false_of_ne heqb (fun he => h he.symm)]
  | cons p rest ih =>
      obtain ⟨ka, v'⟩ := p
      by_cases hh : eqb ka k = true
      · have hk : ka = k := (heqb ka k).mp hh
        by_cases h : k' = k
        · simp [alistPut, hh, alistFind, List.find?, h, hk, (heqb k k).mpr rfl]
        · have h1 : eqb ka k' = false :=
            eqb_false_of_ne heqb (fun he => h (hk ▸ he).symm)
          simp [alistPut, hh, alistFind, List.find?, h, h1]
      · have hne : ka ≠ k := fun he => hh ((heqb ka k).mpr he)
        have hstep : alistPut eqb ((ka, v') :: rest) k v =
            (ka, v') :: alistPut eqb rest k v := by simp [alistPut, hh]
        rw [hstep]
        by_cases h : k' = ka
        · have h1 : eqb ka k' = true := (heqb ka k').mpr h.symm
          have h2 : k' ≠ k := fun he => hne (h ▸ he)
          simp [alistFind, List.find?, h1, h2]
        · have h1 : eqb ka k' = false := eqb_false_of_ne heqb (fun he => h he.symm)
          have h3 : alistFind eqb ((ka, v') :: rest) k' = alistFind eqb rest k' := by
            simp [alistFind, List.find?, h1]
          rw [h3, ← ih]
          simp [alistFind, List.find?, h1]

theorem charHeqb : ∀ a b : Char, (a == b) = true ↔ a = b := fun _ _ => beq_iff_eq

theorem stringHeqb : ∀ a b : String, (a == b) = true ↔ a = b := fun _ _ => beq_iff_eq

theorem ratHeqb : ∀ a b : ℚ, ratEqb a b = true ↔ a = b := fun _ _ => ratEqb_iff

theorem foldl_if_mem_sum (L : List String) (l : List Mod) (a : ℚ) :
    l.foldl (fun acc fmod => if fmod.name ∈ L then acc else acc + fmod.mass) a =
      a + (((l.filter (fun f => !(decide (f.name ∈ L)))).map (·.mass)).sum) := by
  induction l generalizing a with
  | nil => simp
  | cons f fs ih =>
      by_cases h : f.name ∈ L
      · simp [List.foldl_cons, h, ih, List.filter_cons]
      · rw [List.foldl_cons, if_neg h, ih, List.filter_cons]
        simp only [h, decide_False, Bool.not_false, if_pos, List.map_cons, List.sum_cons]
        ring

theorem alistGetD_nil (eqb : κ → κ → Bool) (k : κ) :
    alistGetD (β := β) eqb [] k = [] := by
  simp [alistGetD, alistFind]

theorem adjustmentOf_eq_blockingMass (mods : List Mod) (m : Mod) :
    adjustmentOf (buildFixedpos mods) m = blockingMass mods m := by
  unfold adjustmentOf buildFixedpos blockingMass fixedmods
  rw [alistGetD_foldlAppend charHeqb, alistGetD_nil, List.nil_append,
    foldl_if_mem_sum, zero_add]

theorem adjust_masses_eq_map (mods : List Mod) :
    adjust_masses mods = mods.map (fun mm =>
      if mm.var then
        { mm with adjusted_mass := FloatOrFalse.val (pyRound 5 (-(adjustmentOf (buildFixedpos mods) mm - mm.mass))) }
      else mm) := rfl

/-- C1 (amended): after catalog finalization every variable definition `V`
on residue `R` has `adjusted_mass = round(V.mass − M, 5)` with `M` the sum
of the masses of the fixed definitions on `R` not listed as non-blocking
for `V`; when every fixed definition on `R` is non-blocking for `V` (in
particular when no fixed definition targets `R`) this is `round(V.mass, 5)`
— not `V.mass` itself, which rounding can change. -/
theorem C1_adjusted_mass_amended (mods : List Mod) (m : Mod)
    (hm : m ∈ mods) (hv : m.var = true) :
    { m with adjusted_mass := FloatOrFalse.val (pyRound 5 (m.mass - blockingMass mods m)) }
        ∈ adjust_masses mods
    ∧ ((∀ f ∈ mods, f.var = false → f.residue = m.residue →
          f.name ∈ nonBlockingGet m.name) →
        { m with adjusted_mass := FloatOrFalse.val (pyRound 5 m.mass) }
          ∈ adjust_masses mods) := by
  have hf : (fun mm =>
      if mm.var then
        { mm with adjusted_mass := FloatOrFalse.val (pyRound 5 (-(adjustmentOf (buildFixedpos mods) mm - mm.mass))) }
      else mm) m =
      { m with adjusted_mass := FloatOrFalse.val (pyRound 5 (m.mass - blockingMass mods m)) } := by
    simp only
    rw [if_pos hv, neg_sub, adjustmentOf_eq_blockingMass]
  have hmem : { m with adjusted_mass := FloatOrFalse.val (pyRound 5 (m.mass - blockingMass mods m)) } ∈ adjust_masses mods := by
    rw [adjust_masses_eq_map]
    exact hf ▸ List.mem_map_of_mem _ hm
  refine ⟨hmem, fun hall => ?_⟩
  have hbm : blockingMass mods m = 0 := by
    unfold blockingMass
    have hnil : (((fixedmods mods).filter (fun f => f.residue == m.residue)).filter
        (fun f => !(decide (f.name ∈ nonBlockingGet m.name)))) = [] := by
      rw [List.filter_eq_nil_iff]
      intro f hf1
      simp only [Bool.not_eq_true', decide_eq_false_iff_not, not_not]
      have h1 := List.mem_filter.mp hf1
      have h2 := List.mem_filter.mp h1.1
      exact hall f h2.1 (by simpa using h2.2) (by simpa using h1.2)
    rw [hnil]
    simp
  have hmem2 := hmem
  rw [hbm, sub_zero] at hmem2
  exact hmem2

/-- Witness: `C1_adjusted_mass_amended` applied to the example catalog
(fixed TMT-like mod and variable Phospho share residue `S`). -/
theorem C1_adjusted_mass_amended_witness :
    { exPhos with adjusted_mass := FloatOrFalse.val (pyRound 5 (exPhos.mass - blockingMass [exTMT, exPhos, exOx] exPhos)) } ∈ adjust_masses [exTMT, exPhos, exOx]
    ∧ ((∀ f ∈ [exTMT, exPhos, exOx], f.var = false → f.residue = exPhos.residue →
          f.name ∈ nonBlockingGet exPhos.name) →
        { exPhos with adjusted_mass := FloatOrFalse.val (pyRound 5 exPhos.mass) } ∈ adjust_masses [exTMT, exPhos, exOx]) :=
  C1_adjusted_mass_amended [exTMT, exPhos, exOx] exPhos
    (List.mem_cons_of_mem _ (List.mem_cons_self _ _)) rfl

/-- C1 as stated is false: with no fixed modification on its residue, a
variable modification whose mass has six decimal places gets adjusted mass
`round(mass, 5) = 0`, not the mass itself. -/
theorem C1_counterexample :
    ((adjust_masses [exTiny]).map (fun m =>
        match m.adjusted_mass with
        | FloatOrFalse.val a => ratEqb a 0
        | FloatOrFalse.pyFalse => false)) = [true]
    ∧ exTiny.mass ≠ 0 := by
  constructor
  · with_unfolding_all decide
  · exact ratEqb_ne (by with_unfolding_all decide)

theorem alistAppend_values_ne_nil {eqb : κ → κ → Bool} {d : List (κ × List β)}
    (hd : ∀ p ∈ d, p.2 ≠ []) (k : κ) (v : β) :
    ∀ p ∈ alistAppend eqb d k v, p.2 ≠ [] := by
  induction d with
  | nil =>
      intro p hp
      simp [alistAppend] at hp
      subst hp
      simp
  | cons q rest ih =>
      obtain ⟨ka, l⟩ := q
      intro p hp
      by_cases hh : eqb ka k = true
      · simp [alistAppend, hh] at hp
        rcases hp with hp | hp
        · subst hp; simp
        · exact hd p (List.mem_cons_of_mem _ hp)
      · simp only [alistAppend, hh] at hp
        simp only [Bool.false_eq_true, if_false] at hp
        rcases List.mem_cons.mp hp with hp | hp
        · subst hp
          exact hd (ka, l) (List.mem_cons_self _ _)
        · exact ih (fun q hq => hd q (List.mem_cons_of_mem _ hq)) p hp

theorem foldlAppend_values_ne_nil {eqb : κ → κ → Bool} (key : α → κ)
    (xs : List α) (d : List (κ × List α)) (hd : ∀ p ∈ d, p.2 ≠ []) :
    ∀ p ∈ xs.foldl (fun d x => alistAppend eqb d (key x) x) d, p.2 ≠ [] := by
  induction xs generalizing d with
  | nil => exact hd
  | cons x xs ih =>
      rw [List.foldl_cons]
      exact ih _ (alistAppend_values_ne_nil hd _ _)

theorem msgf_dict_values_ne_nil (mods : List Mod) :
    ∀ p ∈ msgfmass_mod_dict mods, p.2 ≠ [] :=
  foldlAppend_values_ne_nil _ mods [] (by simp)

theorem alistFind_mem {eqb : κ → κ → Bool} {d : List (κ × β)} {k : κ} {l : β}
    (h : alistFind eqb d k = some l) : ∃ k', (k', l) ∈ d := by
  unfold alistFind at h
  cases hf : d.find? (fun p => eqb p.1 k) with
  | none => rw [hf] at h; simp at h
  | some p =>
      rw [hf] at h
      simp at h
      refine ⟨p.1, ?_⟩
      have hp : p ∈ d := List.mem_of_find?_eq_some hf
      have he : (p.1, l) = p := by
        obtain ⟨p1, p2⟩ := p
        simp only at h
        simp [h]
      rw [he]
      exact hp

/-- C2 (amended): two definitions with distinct names whose effective
masses round to the same 3-decimal value are grouped under one key when
the first-tool lookup is built, and using the lookup is not an error:
whenever the parsed token mass is a key of the lookup, resolution
succeeds and silently takes the first definition stored under that key
(`msgf_mods[float(mass)][0]`). -/
theorem C2_ambiguity_amended (mods : List Mod) (labileptmnames stableptmnames : List String)
    (site : Char × ℤ) (acc : List ObsMod) (tok : List Char) (v : ℚ) (l : List Mod)
    (hf : pyFloat tok = some v)
    (hl : alistFind ratEqb (msgfmass_mod_dict mods) v = some l) :
    ∃ m tl, l = m :: tl ∧
      msgfTokenStep (msgfmass_mod_dict mods) labileptmnames stableptmnames site acc tok =
        .ok (acc ++ [{ site := site, type := get_modtype m labileptmnames stableptmnames,
                       mass := m.mass, name := m.name, name_lower := m.name_lower,
                       adjusted_mass := some m.adjusted_mass }]) := by
  obtain ⟨k', hmem⟩ := alistFind_mem hl
  have hne : l ≠ [] := msgf_dict_values_ne_nil mods _ hmem
  cases l with
  | nil => exact absurd rfl hne
  | cons m tl =>
      refine ⟨m, tl, rfl, ?_⟩
      simp [msgfTokenStep, hf, hl]

/-- Witness: `C2_ambiguity_amended` on a catalog whose two definitions
`Alpha` (1.0101) and `Beta` (1.0102) share first-tool key 1.010: the token
`+1.01` resolves, without error, to `Alpha`. -/
theorem C2_ambiguity_amended_witness :
    ∃ m tl, ([exA, exB] : List Mod) = m :: tl ∧
      msgfTokenStep (msgfmass_mod_dict [exA, exB]) [] [] ('K', 0) [] "+1.01".data =
        .ok ([] ++ [{ site := ('K', 0), type := get_modtype m [] [], mass := m.mass,
                      name := m.name, name_lower := m.name_lower,
                      adjusted_mass := some m.adjusted_mass }]) :=
  C2_ambiguity_amended [exA, exB] [] [] ('K', 0) [] "+1.01".data (mkRat 101 100) [exA, exB]
    (beqOption_eq (fun h => ratEqb_eq h) (by with_unfolding_all decide))
    (beqOption_eq (fun h => beqList_eq (fun h => beqMod_eq h) h) (by with_unfolding_all decide))

/-- C2 as stated is false: on a catalog with `Alpha` (mass 1.0101) and
`Beta` (mass 1.0102), which round to the same 3-decimal mass 1.010 under
distinct names, building the first-tool lookup groups them under one key
and parsing a PSM that uses that mass succeeds, silently resolving to the
first definition `Alpha` — no abort happens. -/
theorem C2_counterexample :
    ((msgfmass_mod_dict [exA, exB]).map (fun p => p.2.map (·.name))) = [["Alpha", "Beta"]]
    ∧ exA.name ≠ exB.name
    ∧ ratEqb (pyRound 3 (get_mass_or_adj exA)) (pyRound 3 (get_mass_or_adj exB)) = true
    ∧ (parse_msgf_peptide "K+1.01".data (msgfmass_mod_dict [exA, exB]) [] []).isOk = true
    ∧ (match parse_msgf_peptide "K+1.01".data (msgfmass_mod_dict [exA, exB]) [] [] with
       | .ok p => p.mods.map (·.name)
       | .error _ => []) = ["Alpha"] := by
  refine ⟨?_, ?_, ?_, ?_, ?_⟩ <;> with_unfolding_all decide

/-- C9: a definition whose adjusted mass is exactly `0.0` is treated like
one with no adjusted mass at all (`adjusted_mass or mass` on a falsy
float): the effective-mass accessor returns the raw mass, the first-tool
lookup files the definition under `round(rawMass, 3)`, the second-tool
key is built from the raw mass, and the rendered mod line shows the raw
mass. -/
theorem C9_zero_adjusted_mass (m : Mod) (h0 : m.adjusted_mass = FloatOrFalse.val 0) :
    get_mass_or_adj m = m.mass
    ∧ (∀ mods : List Mod, m ∈ mods →
        m ∈ alistGetD ratEqb (msgfmass_mod_dict mods) (pyRound 3 m.mass))
    ∧ (∀ w : ℚ, aaLookup m.residue = some w →
        luciKey m w = (⟨[m.residue]⟩ : String) ++ pyStrInt (pyRoundInt (w + m.mass)))
    ∧ get_luci_input_mod_line m =
        (if m.pos == "N-term" then "[" else if m.pos == "C-term" then "]"
         else (⟨[m.residue]⟩ : String)) ++ " " ++ strOfRat m.mass := by
  have hacc : get_mass_or_adj m = m.mass := by
    rw [get_mass_or_adj, h0]
    simp [ratEqb]
  refine ⟨hacc, ?_, ?_, ?_⟩
  · intro mods hm
    rw [show msgfmass_mod_dict mods =
        mods.foldl (fun d mm => alistAppend ratEqb d (pyRound 3 (get_mass_or_adj mm)) mm) []
      from rfl]
    rw [alistGetD_foldlAppend ratHeqb, alistGetD_nil, List.nil_append]
    refine List.mem_filter.mpr ⟨hm, ?_⟩
    rw [hacc]
    exact (ratHeqb _ _).mpr rfl
  · intro w _
    rw [luciKey, hacc]
  · rw [get_luci_input_mod_line, hacc]

/-- Witness: `C9_zero_adjusted_mass` at a variable mod with adjusted mass
exactly 0.0 and raw mass 5. -/
theorem C9_zero_adjusted_mass_witness :
    get_mass_or_adj exZero = exZero.mass
    ∧ exZero ∈ alistGetD ratEqb (msgfmass_mod_dict [exZero]) (pyRound 3 exZero.mass)
    ∧ luciKey exZero (mkRat 8703203 100000) =
        (⟨[exZero.residue]⟩ : String) ++ pyStrInt (pyRoundInt (mkRat 8703203 100000 + exZero.mass))
    ∧ get_luci_input_mod_line exZero =
        (if exZero.pos == "N-term" then "[" else if exZero.pos == "C-term" then "]"
         else (⟨[exZero.residue]⟩ : String)) ++ " " ++ strOfRat exZero.mass := by
  have h := C9_zero_adjusted_mass exZero rfl
  exact ⟨h.1, h.2.1 [exZero] (List.mem_cons_self _ _),
    h.2.2.1 (mkRat 8703203 100000)
      (beqOption_eq (fun hh => ratEqb_eq hh) (by with_unfolding_all decide)),
    h.2.2.2⟩

theorem alistFind_put_isSome {eqb : κ → κ → Bool} [DecidableEq κ]
    (heqb : ∀ a b, eqb a b = true ↔ a = b)
    {d : List (κ × β)} {k : κ} (h : (alistFind eqb d k).isSome) (k' : κ) (v : β) :
    (alistFind eqb (alistPut eqb d k' v) k).isSome := by
  rw [alistFind_put heqb]
  by_cases he : k = k' <;> simp [he, h]

theorem lucimass_fold_ok (mods : List Mod) (ms : List Mod)
    (hsub : ∀ m ∈ ms, m ∈ varmods mods)
    (hall : ∀ m ∈ ms, (aaLookup m.residue).isSome) :
    ∀ d : List (String × Mod), luciInv mods d →
    ∃ d', ms.foldlM luciDictStep d = .ok d'
      ∧ luciInv mods d'
      ∧ (∀ m ∈ ms, ∀ w, aaLookup m.residue = some w →
          (alistFind (· == ·) d' (luciKey m w)).isSome)
      ∧ (∀ k, (alistFind (· == ·) d k).isSome → (alistFind (· == ·) (d' : List (String × Mod)) k).isSome) := by
  induction ms with
  | nil =>
      intro d hinv
      exact ⟨d, rfl, hinv, by simp, fun k h => h⟩
  | cons m ms ih =>
      intro d hinv
      have hm := hall m (List.mem_cons_self _ _)
      cases hw : aaLookup m.residue with
      | none => rw [hw] at hm; simp at hm
      | some w =>
          have hinv' : luciInv mods (alistPut (· == ·) d (luciKey m w) m) := by
            intro k m' hfind
            rw [alistFind_put stringHeqb] at hfind
            by_cases hk : k = luciKey m w
            · rw [if_pos hk] at hfind
              cases hfind
              exact ⟨hsub m (List.mem_cons_self _ _), w, hw, hk⟩
            · rw [if_neg hk] at hfind
              exact hinv k m' hfind
          obtain ⟨d', hfold, hinvd, hmem, hpres⟩ :=
            ih (fun x hx => hsub x (List.mem_cons_of_mem _ hx))
              (fun x hx => hall x (List.mem_cons_of_mem _ hx))
              (alistPut (· == ·) d (luciKey m w) m) hinv'
          refine ⟨d', ?_, hinvd, ?_, ?_⟩
          · rw [List.foldlM_cons]
            rw [show luciDictStep d m = .ok (alistPut (· == ·) d (luciKey m w) m) by
              rw [luciDictStep, hw]]
            exact hfold
          · intro x hx wx hwx
            rcases List.mem_cons.mp hx with he | hx'
            · subst he
              rw [hwx] at hw
              cases hw
              refine hpres _ ?_
              rw [alistFind_put stringHeqb, if_pos rfl]
              rfl
            · exact hmem x hx' wx hwx
          · intro k hk
            exact hpres k (alistFind_put_isSome stringHeqb hk _ _)

/-- C7: when every variable definition sits on a residue with a standard
monoisotopic weight, building the second-tool lookup succeeds, and for
every variable definition the key
`residue + str(round(weight + effectiveMass))` (effective mass =
adjusted-if-truthy-else-raw, integer half-to-even rounding) is present in
the lookup; the stored entry is itself a variable definition of the
catalog stored under that same key formula. -/
theorem C7_lucimass_lookup (mods : List Mod)
    (hall : ∀ m ∈ varmods mods, (aaLookup m.residue).isSome) :
    ∃ d, lucimass_mod_dict mods = .ok d
      ∧ (∀ m ∈ varmods mods, ∀ w, aaLookup m.residue = some w →
          (alistFind (· == ·) d
            ((⟨[m.residue]⟩ : String) ++ pyStrInt (pyRoundInt (w + get_mass_or_adj m)))).isSome)
      ∧ (∀ k m', alistFind (· == ·) d k = some m' →
          m' ∈ varmods mods ∧ ∃ w', aaLookup m'.residue = some w' ∧
            k = (⟨[m'.residue]⟩ : String) ++ pyStrInt (pyRoundInt (w' + get_mass_or_adj m'))) := by
  obtain ⟨d, hfold, hinv, hmem, _⟩ :=
    lucimass_fold_ok mods (varmods mods) (fun _ h => h) hall [] (by intro k m' h; simp [alistFind] at h)
  exact ⟨d, hfold, fun m hm w hw => hmem m hm w hw, fun k m' hf => hinv k m' hf⟩

/-- Witness: `C7_lucimass_lookup` on the example catalog (variable Phospho
on `S` with a blocking fixed mod, variable Oxidation on `M`). -/
theorem C7_lucimass_lookup_witness :
    ∃ d, lucimass_mod_dict exCat = .ok d
      ∧ (∀ m ∈ varmods exCat, ∀ w, aaLookup m.residue = some w →
          (alistFind (· == ·) d
            ((⟨[m.residue]⟩ : String) ++ pyStrInt (pyRoundInt (w + get_mass_or_adj m)))).isSome)
      ∧ (∀ k m', alistFind (· == ·) d k = some m' →
          m' ∈ varmods exCat ∧ ∃ w', aaLookup m'.residue = some w' ∧
            k = (⟨[m'.residue]⟩ : String) ++ pyStrInt (pyRoundInt (w' + get_mass_or_adj m'))) :=
  C7_lucimass_lookup exCat (by
    intro m hm
    fin_cases hm <;> with_unfolding_all decide)

theorem takeWhile_all_append {p : Char → Bool} {ds : List Char} (b : Char) (rest : List Char)
    (hds : ∀ c ∈ ds, p c = true) (hb : p b = false) :
    (ds ++ b :: rest).takeWhile p = ds ∧ (ds ++ b :: rest).dropWhile p = b :: rest := by
  induction ds with
  | nil => simp [List.takeWhile, List.dropWhile, hb]
  | cons d ds ih =>
      have hd := hds d (List.mem_cons_self _ _)
      have := ih (fun c hc => hds c (List.mem_cons_of_mem _ hc))
      simp [List.takeWhile_cons, List.dropWhile_cons, hd, this.1, this.2]

theorem tryBracket_some {l ds rest' : List Char}
    (h : tryBracket l = some (ds, rest')) :
    l = '[' :: (ds ++ ']' :: rest') ∧ ds ≠ [] ∧ ∀ c ∈ ds, c.isDigit = true := by
  cases l with
  | nil => simp [tryBracket] at h
  | cons c r =>
      simp only [tryBracket] at h
      by_cases hcond : c = '[' ∧ r.takeWhile Char.isDigit ≠ [] ∧
          (r.dropWhile Char.isDigit).head? = some ']'
      · rw [if_pos hcond] at h
        simp only [Option.some.injEq, Prod.mk.injEq] at h
        obtain ⟨hds, htl⟩ := h
        obtain ⟨hc, hne, hh⟩ := hcond
        subst hc
        cases hdrop : r.dropWhile Char.isDigit with
        | nil => rw [hdrop] at hh; simp at hh
        | cons c2 rs =>
            rw [hdrop] at hh htl
            have hc2 : c2 = ']' := by simpa using hh
            subst hc2
            simp only [List.tail_cons] at htl
            refine ⟨?_, ?_, ?_⟩
            · have hsplit := List.takeWhile_append_dropWhile (p := Char.isDigit) (l := r)
              rw [hdrop, hds, htl] at hsplit
              rw [← hsplit]
            · rw [← hds]; exact hne
            · intro x hx
              rw [← hds] at hx
              exact List.mem_takeWhile_imp hx
      · rw [if_neg hcond] at h
        simp at h

theorem tryBracket_render {ds : List Char} (rest : List Char)
    (hne : ds ≠ []) (hdig : ∀ c ∈ ds, c.isDigit = true) :
    tryBracket ('[' :: (ds ++ ']' :: rest)) = some (ds, rest) := by
  have hb : (']' : Char).isDigit = false := by decide
  have htw := takeWhile_all_append (p := Char.isDigit) ']' rest hdig hb
  simp only [tryBracket, htw.1, htw.2]
  rw [if_pos ⟨by trivial, hne, by trivial⟩]
  simp

theorem tryBracket_head_alpha {l : List Char}
    (h : ∀ c, l.head? = some c → c.isAlpha = true) : tryBracket l = none := by
  cases l with
  | nil => rfl
  | cons c r =>
      have ha := h c rfl
      have hc : ¬(c = '[') := by
        intro he
        rw [he] at ha
        simp at ha
      simp only [tryBracket]
      rw [if_neg (fun hcond => hc hcond.1)]

theorem renderToks_head_alpha (ts : List LTok) (hwf : ∀ t ∈ ts, wfTok t) :
    ∀ c, (renderToks ts).head? = some c → c.isAlpha = true := by
  cases ts with
  | nil => intro c h; simp [renderToks] at h
  | cons t ts =>
      intro c h
      have hwt := hwf t (List.mem_cons_self _ _)
      cases t with
      | plain a =>
          simp [renderToks, renderTok] at h
          rw [← h]
          exact hwt
      | modded a ds =>
          simp [renderToks, renderTok] at h
          rw [← h]
          simp [Char.isAlpha, hwt.1]

theorem scoreFmtAux_fuel : ∀ f1 f2 (l : List Char), l.length < f1 → l.length < f2 →
    scoreFmtAux f1 l = scoreFmtAux f2 l := by
  intro f1
  induction f1 with
  | zero => intro f2 l h1 _; exact absurd h1 (Nat.not_lt_zero _)
  | succ f ih =>
      intro f2 l h1 h2
      cases f2 with
      | zero => exact absurd h2 (Nat.not_lt_zero _)
      | succ f2' =>
          cases l with
          | nil => rfl
          | cons c rest =>
              by_cases hu : c.isUpper = true
              · cases htb : tryBracket rest with
                | none =>
                    have h1' : rest.length < f := by simp at h1; omega
                    have h2' : rest.length < f2' := by simp at h2; omega
                    simp only [scoreFmtAux, hu, if_true, htb]
                    rw [ih f2' rest h1' h2']
                | some p =>
                    obtain ⟨ds, rest'⟩ := p
                    obtain ⟨hshape, hne, _⟩ := tryBracket_some htb
                    have hlen : rest.length = ds.length + 2 + rest'.length := by
                      rw [hshape]
                      simp [List.length_cons, List.length_append]
                      omega
                    have h1' : rest'.length < f := by simp at h1; omega
                    have h2' : rest'.length < f2' := by simp at h2; omega
                    simp only [scoreFmtAux, hu, if_true, htb]
                    rw [ih f2' rest' h1' h2']
              · have h1' : rest.length < f := by simp at h1; omega
                have h2' : rest.length < f2' := by simp at h2; omega
                simp only [scoreFmtAux, hu]
                simp only [Bool.false_eq_true, if_false]
                rw [ih f2' rest h1' h2']

theorem scoreFmtAux_render (ts : List LTok) (hwf : ∀ t ∈ ts, wfTok t) :
    ∀ fuel, (renderToks ts).length < fuel →
      scoreFmtAux fuel (renderToks ts) = ts.flatMap fmtTok := by
  induction ts with
  | nil =>
      intro fuel h
      cases fuel with
      | zero => exact absurd h (Nat.not_lt_zero _)
      | succ f => simp [renderToks, scoreFmtAux]
  | cons t ts ih =>
      intro fuel h
      cases fuel with
      | zero => exact absurd h (Nat.not_lt_zero _)
      | succ f =>
          have hwt := hwf t (List.mem_cons_self _ _)
          have hwts : ∀ x ∈ ts, wfTok x := fun x hx => hwf x (List.mem_cons_of_mem _ hx)
          cases t with
          | plain c =>
              have hr : renderToks (LTok.plain c :: ts) = c :: renderToks ts := by
                simp [renderToks, renderTok]
              rw [hr] at h ⊢
              have hnone : tryBracket (renderToks ts) = none :=
                tryBracket_head_alpha (renderToks_head_alpha ts hwts)
              have hrec : scoreFmtAux f (renderToks ts) = ts.flatMap fmtTok :=
                ih hwts f (by simp at h; omega)
              by_cases hu : c.isUpper = true
              · simp only [scoreFmtAux, hu, if_true, hnone, hrec]
                simp [fmtTok]
              · simp only [scoreFmtAux, hu, Bool.false_eq_true, if_false, hrec]
                simp [fmtTok]
          | modded c ds =>
              obtain ⟨hu, hne, hdig⟩ := hwt
              have hr : renderToks (LTok.modded c ds :: ts) =
                  c :: '[' :: (ds ++ ']' :: renderToks ts) := by
                simp [renderToks, renderTok]
              rw [hr] at h ⊢
              have hdig' : ∀ x ∈ ds, x.isDigit = true := fun x hx => by
                have := List.all_eq_true.mp hdig x hx
                simpa using this
              have hbr := tryBracket_render (renderToks ts) hne hdig'
              have hrec : scoreFmtAux f (renderToks ts) = ts.flatMap fmtTok := by
                refine ih hwts f ?_
                simp [List.length_append] at h
                omega
              simp only [scoreFmtAux, hu, if_true, hbr, hrec]
              simp [fmtTok]

/-- C5 (amended): the score-permutation form replaces every occurrence of
an uppercase residue immediately followed by a bracketed integer mass by
that residue's lowercase letter alone and leaves all other characters
unchanged; in particular, for input `AC[79]DE` the form is `AcDE`
(`A` has no bracketed mass, so it stays uppercase — not `acDE`). -/
theorem C5_score_permutation_amended (ts : List LTok) (hwf : ∀ t ∈ ts, wfTok t) :
    scoreFmt (renderToks ts) = ts.flatMap fmtTok
    ∧ scoreFmt "AC[79]DE".data = "AcDE".data := by
  constructor
  · exact scoreFmtAux_render ts hwf ((renderToks ts).length + 1) (Nat.lt_succ_self _)
  · with_unfolding_all decide

/-- Witness: `C5_score_permutation_amended` on the tokenisation of
`AC[79]DE` itself. -/
theorem C5_score_permutation_amended_witness :
    scoreFmt (renderToks [LTok.plain 'A', LTok.modded 'C' ['7', '9'],
        LTok.plain 'D', LTok.plain 'E']) =
      ([LTok.plain 'A', LTok.modded 'C' ['7', '9'],
        LTok.plain 'D', LTok.plain 'E'].flatMap fmtTok)
    ∧ scoreFmt "AC[79]DE".data = "AcDE".data :=
  C5_score_permutation_amended _ (by
    intro t ht
    fin_cases ht <;> simp [wfTok])

/-- C5 as stated is false at its own example: the score-permutation form
of `AC[79]DE` is `AcDE`, not `acDE` (the leading `A` carries no bracketed
mass and is not lowercased). -/
theorem C5_counterexample :
    scoreFmt "AC[79]DE".data = "AcDE".data ∧ "AcDE".data ≠ "acDE".data := by
  constructor
  · with_unfolding_all decide
  · decide

theorem toUpper_digitChar {n : ℕ} (h : n < 10) : (digitChar n).toUpper = digitChar n := by
  interval_cases n <;> decide

theorem natDigitsAux_toUpper (fuel : ℕ) :
    ∀ n, (natDigitsAux fuel n).map Char.toUpper = natDigitsAux fuel n := by
  induction fuel with
  | zero => intro n; rfl
  | succ f ih =>
      intro n
      by_cases h : n < 10
      · simp [natDigitsAux, h, toUpper_digitChar h]
      · simp [natDigitsAux, h, ih (n / 10), toUpper_digitChar (Nat.mod_lt n (by norm_num))]

theorem pyUpper_pyStrNat (n : ℕ) : pyUpper (pyStrNat n) = pyStrNat n :=
  congrArg String.mk (natDigitsAux_toUpper (n + 1) n)

theorem pyUpper_append (a b : String) : pyUpper (a ++ b) = pyUpper a ++ pyUpper b := by
  obtain ⟨la⟩ := a
  obtain ⟨lb⟩ := b
  show (⟨((⟨la ++ lb⟩ : String)).data.map Char.toUpper⟩ : String) = ⟨la.map Char.toUpper ++ lb.map Char.toUpper⟩
  simp

theorem pyUpper_pyJoin (sep : String) (xs : List String) :
    pyUpper (pyJoin sep xs) = pyJoin (pyUpper sep) (xs.map pyUpper) := by
  induction xs with
  | nil => rfl
  | cons x xs ih =>
      cases xs with
      | nil => rfl
      | cons y ys =>
          show pyUpper (x ++ sep ++ pyJoin sep (y :: ys)) = _
          rw [pyUpper_append, pyUpper_append, ih]
          rfl

theorem pyUpper_colon : pyUpper ":" = ":" := by decide

theorem pyUpper_singleton (c : Char) : pyUpper (⟨[c]⟩ : String) = (⟨[c.toUpper]⟩ : String) := rfl

theorem pyUpper_entry (c : Char) (i : ℕ) (score : List Char) :
    pyUpper ((⟨[c]⟩ : String) ++ pyStrNat (i + 1) ++ ":" ++ (⟨score⟩ : String)) =
      (⟨[c.toUpper]⟩ : String) ++ pyStrNat (i + 1) ++ ":" ++ pyUpper (⟨score⟩ : String) := by
  rw [pyUpper_append, pyUpper_append, pyUpper_append, pyUpper_pyStrNat, pyUpper_colon,
    pyUpper_singleton]

theorem pyUpper_altEntries (sp : ScorePep) :
    (altEntries sp).map pyUpper =
      (sp.curPermutation.enum.filter (fun p => p.2.isLower)).map
        (fun p => (⟨[p.2.toUpper]⟩ : String) ++ pyStrNat (p.1 + 1) ++ ":"
          ++ pyUpper (⟨sp.score⟩ : String)) := by
  rw [altEntries, List.map_map]
  refine List.map_congr_left ?_
  intro p _
  exact pyUpper_entry p.2 p.1 sp.score

/-- C4: a candidate permutation is recorded as an alternative-localization
group iff it differs from the canonical score-permutation form and its
score is strictly above the threshold; the recorded group, once formatted,
is the comma-join of `UPPER(letter) + (1-based position) + ":" + score`
over the lowercase letters of the candidate, uppercased throughout;
groups are joined by `;` and an empty record formats as `"NA"`. -/
theorem C4_alt_localization (fmt : List Char) (alt : List (List String)) (sp : ScorePep)
    (minscore v : ℚ) (hv : pyFloat sp.score = some v) :
    ∃ alt', parse_luciphor_scores fmt alt sp minscore = .ok alt'
      ∧ (alt'.length = alt.length + 1 ↔ (sp.curPermutation ≠ fmt ∧ v > minscore))
      ∧ ((sp.curPermutation ≠ fmt ∧ v > minscore) → alt' = alt ++ [altEntries sp])
      ∧ (¬(sp.curPermutation ≠ fmt ∧ v > minscore) → alt' = alt)
      ∧ pyUpper (pyJoin "," (altEntries sp)) =
          pyJoin "," ((sp.curPermutation.enum.filter (fun p => p.2.isLower)).map
            (fun p => (⟨[p.2.toUpper]⟩ : String) ++ pyStrNat (p.1 + 1) ++ ":"
              ++ pyUpper (⟨sp.score⟩ : String)))
      ∧ (∀ alt'' : List (List String), format_alt_ptm_locs alt'' =
          if alt''.length ≠ 0 then pyJoin ";" (alt''.map (fun g => pyUpper (pyJoin "," g)))
          else "NA") := by
  have hgroup : pyUpper (pyJoin "," (altEntries sp)) =
      pyJoin "," ((sp.curPermutation.enum.filter (fun p => p.2.isLower)).map
        (fun p => (⟨[p.2.toUpper]⟩ : String) ++ pyStrNat (p.1 + 1) ++ ":"
          ++ pyUpper (⟨sp.score⟩ : String))) := by
    rw [pyUpper_pyJoin, pyUpper_altEntries]
    rfl
  have hfmt : ∀ alt'' : List (List String), format_alt_ptm_locs alt'' =
      if alt''.length ≠ 0 then pyJoin ";" (alt''.map (fun g => pyUpper (pyJoin "," g)))
      else "NA" := by
    intro alt''
    rw [format_alt_ptm_locs]
    simp only [List.length_map]
  by_cases hd : sp.curPermutation ≠ fmt
  · have hparse : parse_luciphor_scores fmt alt sp minscore =
        if v > minscore then .ok (alt ++ [altEntries sp]) else .ok alt := by
      rw [parse_luciphor_scores, if_pos hd, hv]
    by_cases hgt : v > minscore
    · have hparse' : parse_luciphor_scores fmt alt sp minscore =
          .ok (alt ++ [altEntries sp]) := by rw [hparse, if_pos hgt]
      refine ⟨alt ++ [altEntries sp], hparse', ?_, fun _ => rfl,
        fun hn => absurd ⟨hd, hgt⟩ hn, hgroup, hfmt⟩
      constructor
      · intro _
        exact ⟨hd, hgt⟩
      · intro _
        simp
    · have hparse' : parse_luciphor_scores fmt alt sp minscore = .ok alt := by
        rw [hparse, if_neg hgt]
      refine ⟨alt, hparse', ?_, fun hc => absurd hc.2 hgt, fun _ => rfl, hgroup, hfmt⟩
      constructor
      · intro hl
        omega
      · intro hc
        exact absurd hc.2 hgt
  · have hparse : parse_luciphor_scores fmt alt sp minscore = .ok alt := by
      rw [parse_luciphor_scores, if_neg hd]
    refine ⟨alt, hparse, ?_, fun hc => absurd hc.1 hd, fun _ => rfl, hgroup, hfmt⟩
    constructor
    · intro hl
      omega
    · intro hc
      exact absurd hc.1 hd

/-- Witness: `C4_alt_localization` on canonical form `acDE`, candidate
`aCdE` with score 0.9 and threshold 0.5. -/
theorem C4_alt_localization_witness :
    ∃ alt', parse_luciphor_scores "acDE".data []
        { curPermutation := "aCdE".data, score := "0.9".data } (mkRat 1 2) = .ok alt'
      ∧ (alt'.length = List.length ([] : List (List String)) + 1 ↔
          ("aCdE".data ≠ "acDE".data ∧ mkRat 9 10 > mkRat 1 2))
      ∧ (("aCdE".data ≠ "acDE".data ∧ mkRat 9 10 > mkRat 1 2) →
          alt' = [] ++ [altEntries { curPermutation := "aCdE".data, score := "0.9".data }])
      ∧ (¬("aCdE".data ≠ "acDE".data ∧ mkRat 9 10 > mkRat 1 2) → alt' = [])
      ∧ pyUpper (pyJoin ","
            (altEntries { curPermutation := "aCdE".data, score := "0.9".data })) =
          pyJoin "," ((("aCdE".data.enum.filter (fun p => p.2.isLower))).map
            (fun p => (⟨[p.2.toUpper]⟩ : String) ++ pyStrNat (p.1 + 1) ++ ":"
              ++ pyUpper (⟨"0.9".data⟩ : String)))
      ∧ (∀ alt'' : List (List String), format_alt_ptm_locs alt'' =
          if alt''.length ≠ 0 then pyJoin ";" (alt''.map (fun g => pyUpper (pyJoin "," g)))
          else "NA") :=
  C4_alt_localization "acDE".data [] { curPermutation := "aCdE".data, score := "0.9".data }
    (mkRat 1 2) (mkRat 9 10)
    (beqOption_eq (fun hh => ratEqb_eq hh) (by with_unfolding_all decide))

/-- C6: during second-tool output parsing, a match whose key resolves in
the lookup records an `ObservedModification` iff the resolved definition's
name-key is in the labile set; non-labile matches are never recorded; a
labile match occurring while the accumulated bare sequence is still empty
is anchored at the protein N-terminal sentinel `('[', -100)`, otherwise at
the last residue of the bare sequence with its 0-based index. -/
theorem C6_labile_only_recording (modpep : List Char) (ptms_map : List (String × Mod))
    (labileptms stabileptms : List String) (st : LuciState) (x : LuciMatch) (ptm : Mod)
    (hres : alistFind (· == ·) ptms_map (luciMatchKey x) = some ptm) :
    ∃ st', luciStep modpep ptms_map labileptms stabileptms st x = .ok st'
      ∧ st'.barepep = (match x.res with
          | some _ => st.barepep ++ pySlice modpep st.start (x.mstart + 1)
          | none => st.barepep)
      ∧ (st'.mods.length = st.mods.length + 1 ↔ ptm.name_lower ∈ labileptms)
      ∧ (ptm.name_lower ∉ labileptms → st'.mods = st.mods)
      ∧ (ptm.name_lower ∈ labileptms →
          st'.mods = st.mods ++ [{
            site := (if st'.barepep = [] then (('[', -100) : Char × ℤ)
                     else ((st'.barepep.getLast?).getD '[', (st'.barepep.length : ℤ) - 1)),
            type := get_modtype ptm labileptms stabileptms, mass := ptm.mass,
            name := ptm.name, name_lower := ptm.name_lower, adjusted_mass := none }]) := by
  have hstep : luciStep modpep ptms_map labileptms stabileptms st x =
      (if ptm.name_lower ∈ labileptms then
        .ok { barepep := (match x.res with
                | some _ => st.barepep ++ pySlice modpep st.start (x.mstart + 1)
                | none => st.barepep),
              start := x.mend,
              mods := st.mods ++ [{
                site := (((match x.res with
                    | some _ => st.barepep ++ pySlice modpep st.start (x.mstart + 1)
                    | none => st.barepep).getLast?).getD '[',
                  if (match x.res with
                      | some _ => st.barepep ++ pySlice modpep st.start (x.mstart + 1)
                      | none => st.barepep).length ≠ 0 then
                    ((match x.res with
                      | some _ => st.barepep ++ pySlice modpep st.start (x.mstart + 1)
                      | none => st.barepep).length : ℤ) - 1
                  else -100),
                type := get_modtype ptm labileptms stabileptms, mass := ptm.mass,
                name := ptm.name, name_lower := ptm.name_lower, adjusted_mass := none }] }
       else
        .ok { barepep := (match x.res with
                | some _ => st.barepep ++ pySlice modpep st.start (x.mstart + 1)
                | none => st.barepep),
              start := x.mend, mods := st.mods }) := by
    rw [luciStep, hres]
  set bp : List Char := (match x.res with
      | some _ => st.barepep ++ pySlice modpep st.start (x.mstart + 1)
      | none => st.barepep) with hbp
  have hsite : ((bp.getLast?).getD '[',
        if bp.length ≠ 0 then (bp.length : ℤ) - 1 else -100) =
      (if bp = [] then (('[', -100) : Char × ℤ)
       else ((bp.getLast?).getD '[', (bp.length : ℤ) - 1)) := by
    by_cases he : bp = []
    · rw [he]
      simp
    · have hlen : bp.length ≠ 0 := by
        intro h0
        exact he (List.eq_nil_of_length_eq_zero h0)
      rw [if_neg he, if_pos hlen]
  by_cases hl : ptm.name_lower ∈ labileptms
  · rw [if_pos hl] at hstep
    refine ⟨_, hstep, rfl, ?_, fun hn => absurd hl hn, fun _ => ?_⟩
    · simp only [List.length_append, List.length_cons, List.length_nil]
      exact ⟨fun _ => hl, fun _ => trivial⟩
    · simp only
      rw [hsite]
  · rw [if_neg hl] at hstep
    refine ⟨_, hstep, rfl, ?_, fun _ => rfl, fun hc => absurd hc hl⟩
    simp only
    exact ⟨fun h0 => by omega, fun hc => absurd hc hl⟩

/-- Witness: `C6_labile_only_recording` on the match `S[167]` resolved to
the labile Phospho fixture. -/
theorem C6_labile_only_recording_witness :
    ∃ st', luciStep "S[167]".data [("S167", exPhos)] ["phospho"] []
        { barepep := [], start := 0, mods := [] }
        { mstart := 0, mend := 6, res := some 'S', ds := ['1', '6', '7'] } = .ok st'
      ∧ st'.barepep = (match (some 'S' : Option Char) with
          | some _ => [] ++ pySlice "S[167]".data 0 (0 + 1)
          | none => [])
      ∧ (st'.mods.length = List.length ([] : List ObsMod) + 1 ↔
          exPhos.name_lower ∈ ["phospho"])
      ∧ (exPhos.name_lower ∉ ["phospho"] → st'.mods = [])
      ∧ (exPhos.name_lower ∈ ["phospho"] →
          st'.mods = [] ++ [{
            site := (if st'.barepep = [] then (('[', -100) : Char × ℤ)
                     else ((st'.barepep.getLast?).getD '[', (st'.barepep.length : ℤ) - 1)),
            type := get_modtype exPhos ["phospho"] [], mass := exPhos.mass,
            name := exPhos.name, name_lower := exPhos.name_lower, adjusted_mass := none }]) :=
  C6_labile_only_recording "S[167]".data [("S167", exPhos)] ["phospho"] []
    { barepep := [], start := 0, mods := [] }
    { mstart := 0, mend := 6, res := some 'S', ds := ['1', '6', '7'] } exPhos
    (beqOption_eq (fun hh => beqMod_eq hh) (by with_unfolding_all decide))

theorem mapExcept_not_ok {f : α → Except Err β} {x : α} (hbad : ∀ y, f x ≠ .ok y) :
    ∀ l : List α, x ∈ l → ∀ r, mapExcept f l ≠ .ok r := by
  intro l
  induction l with
  | nil => intro hx; cases hx
  | cons a as ih =>
      intro hx r hr
      rw [mapExcept] at hr
      cases hfa : f a with
      | error e => rw [hfa] at hr; simp at hr
      | ok y =>
          rw [hfa] at hr
          cases hm : mapExcept f as with
          | error e => rw [hm] at hr; simp at hr
          | ok ys =>
              rcases List.mem_cons.mp hx with he | hx'
              · subst he
                exact hbad y hfa
              · exact ih hx' ys hm

theorem mapExcept_ok_of_all {f : α → Except Err β} {g : α → β} :
    ∀ {l : List α}, (∀ x ∈ l, f x = .ok (g x)) → mapExcept f l = .ok (l.map g) := by
  intro l
  induction l with
  | nil => intro _; rfl
  | cons a as ih =>
      intro h
      rw [mapExcept, h a (List.mem_cons_self _ _), ih (fun x hx => h x (List.mem_cons_of_mem _ hx))]
      simp

/-- C10: a PSM that carries a non-fixed observed modification anchored at
the protein N-terminal sentinel site `('[', -100)` — which
`parse_msgf_peptide` produces whenever a delta token has no preceding
residue — cannot be rendered to second-tool input sites: `'['` has no
entry in the residue weight table, so `luciphor_input_sites` raises
`KeyError` instead of returning a row. -/
theorem C10_nterm_sentinel_render_fails (mods : List ObsMod)
    (h : ∃ m ∈ mods, m.type ≠ ModType.fixed ∧ m.site = ('[', -100)) :
    (luciphor_input_sites mods).isOk = false := by
  obtain ⟨m, hm, hnf, hsite⟩ := h
  have h1 : m.site.1 = '[' := by rw [hsite]
  have hlk : aaLookup m.site.1 = none := by
    rw [h1]
    have : (aaLookup '[').isNone = true := by with_unfolding_all decide
    exact Option.isNone_iff_eq_none.mp this
  have hmf : m ∈ mods.filter (fun m => m.type != ModType.fixed) :=
    List.mem_filter.mpr ⟨hm, by simpa using hnf⟩
  have hbad : ∀ y, luciSiteEntry m ≠ .ok y := by
    intro y
    rw [luciSiteEntry, hlk]
    intro hcontra
    cases hcontra
  cases hfin : luciphor_input_sites mods with
  | error e => rfl
  | ok r =>
      exfalso
      rw [luciphor_input_sites] at hfin
      cases hmap : mapExcept luciSiteEntry (mods.filter (fun m => m.type != ModType.fixed)) with
      | error e =>
          rw [hmap] at hfin
          cases hfin
      | ok lm =>
          exact mapExcept_not_ok hbad _ hmf lm hmap

/-- Witness: parsing the valid first-tool row `+42.01PEPT` (N-terminal
delta with no preceding residue, labile catalog entry 42.01) yields a PSM
whose site rendering fails. -/
theorem C10_nterm_sentinel_render_fails_witness :
    ∃ p, parse_msgf_peptide "+42.01PEPT".data
        (msgfmass_mod_dict (adjust_masses [exNt])) ["acetyl"] [] = .ok p
      ∧ (luciphor_input_sites p.mods).isOk = false := by
  refine ⟨{ mods := [exNtObs], sequence := "PEPT".data }, ?_, ?_⟩
  · exact beqExcept_eq (fun hh => beqParsed_eq hh) (by with_unfolding_all decide)
  · exact C10_nterm_sentinel_render_fails _
      ⟨exNtObs, List.mem_cons_self _ _, by decide, rfl⟩

/-- C3 (amended): a parsed PSM produces a second-tool input row iff it
carries at least one labile modification (exactly one row then); the
`modSites` field lists every modification whose kind is NOT fixed —
labile, stable, and plain variable alike — as
`siteIndex=(rawModMass + standardResidueMass)`, comma-joined, using the
raw (unadjusted) modification mass. -/
theorem C3_rows_amended (mods : List ObsMod)
    (hres : ∀ m ∈ mods, m.type ≠ ModType.fixed → (aaLookup m.site.1).isSome) :
    ((luciRows mods).length = 1 ↔ has_labileptms mods = true)
    ∧ (has_labileptms mods = false → luciRows mods = [])
    ∧ (has_labileptms mods = true →
        luciRows mods = [.ok (pyJoin ","
          ((mods.filter (fun m => m.type != ModType.fixed)).map
            (fun m => pyStrInt m.site.2 ++ "=" ++
              strOfRat (m.mass + (aaLookup m.site.1).getD 0))))]) := by
  have hsites : luciphor_input_sites mods = .ok (pyJoin ","
      ((mods.filter (fun m => m.type != ModType.fixed)).map
        (fun m => pyStrInt m.site.2 ++ "=" ++
          strOfRat (m.mass + (aaLookup m.site.1).getD 0)))) := by
    rw [luciphor_input_sites]
    have hall : ∀ x ∈ mods.filter (fun m => m.type != ModType.fixed),
        luciSiteEntry x = .ok (x.site.2, strOfRat (x.mass + (aaLookup x.site.1).getD 0)) := by
      intro x hx
      have hx1 := List.mem_filter.mp hx
      have hs := hres x hx1.1 (by simpa using hx1.2)
      cases hw : aaLookup x.site.1 with
      | none => rw [hw] at hs; cases hs
      | some w => simp [luciSiteEntry, hw]
    rw [mapExcept_ok_of_all hall]
    simp only [List.map_map]
    rfl
  by_cases hl : has_labileptms mods = true
  · rw [luciRows, if_pos hl]
    refine ⟨⟨fun _ => hl, fun _ => rfl⟩, fun hf => absurd hl (by rw [hf]; simp), fun _ => ?_⟩
    rw [hsites]
  · rw [luciRows, if_neg hl]
    refine ⟨?_, fun _ => rfl, fun ht => absurd ht hl⟩
    constructor
    · intro h0
      simp at h0
    · intro ht
      exact absurd ht hl

/-- Witness: `C3_rows_amended` at the two-mod PSM parsed from
`S+69.966M+15.995` (one labile, one stable). -/
theorem C3_rows_amended_witness :
    ((luciRows [exObsPhos, exObsOx]).length = 1 ↔
      has_labileptms [exObsPhos, exObsOx] = true)
    ∧ (has_labileptms [exObsPhos, exObsOx] = false → luciRows [exObsPhos, exObsOx] = [])
    ∧ (has_labileptms [exObsPhos, exObsOx] = true →
        luciRows [exObsPhos, exObsOx] = [.ok (pyJoin ","
          (([exObsPhos, exObsOx].filter (fun m => m.type != ModType.fixed)).map
            (fun m => pyStrInt m.site.2 ++ "=" ++
              strOfRat (m.mass + (aaLookup m.site.1).getD 0))))]) :=
  C3_rows_amended [exObsPhos, exObsOx] (by
    intro m hm _
    fin_cases hm <;> with_unfolding_all decide)

/-- C3 as stated is false: the PSM parsed from `S+69.966M+15.995` (labile
Phospho on S, stable Oxidation on M) produces one row whose `modSites`
field is `0=166.99836,1=147.0354` — it contains the non-labile Oxidation
site, and the Phospho site uses the raw mass 79.96633 (166.99836 =
79.96633 + 87.03203), not the effective (adjusted) mass 69.96633, which
would have given `0=156.99836`. -/
theorem C3_counterexample :
    parse_msgf_peptide "S+69.966M+15.995".data exMap ["phospho"] ["oxidation"] =
      .ok { mods := [exObsPhos, exObsOx], sequence := "SM".data }
    ∧ luciRows [exObsPhos, exObsOx] = [.ok "0=166.99836,1=147.0354"]
    ∧ "0=166.99836,1=147.0354" ≠ "0=156.99836" :=
  ⟨beqExcept_eq (fun hh => beqParsed_eq hh) (by with_unfolding_all decide),
   beqList_eq (fun hh => beqExcept_eq (fun hh2 => eq_of_beq hh2) hh)
     (by with_unfolding_all decide),
   by decide⟩

theorem exceptBind_ok {e : Except Err α} {f : α → Except Err β} {b : β} :
    (e >>= f) = .ok b ↔ ∃ a, e = .ok a ∧ f a = .ok b := by
  cases e <;> simp [Bind.bind, Except.bind]

theorem alistFind_eq_getD {eqb : κ → κ → Bool} {d : List (κ × List β)} {k : κ} {l : List β}
    (h : alistFind eqb d k = some l) : l = alistGetD eqb d k := by
  rw [alistGetD, h]
  rfl

theorem msgfdict_getD (mods : List Mod) (v : ℚ) :
    alistGetD ratEqb (msgfmass_mod_dict mods) v =
      mods.filter (fun m => ratEqb (pyRound 3 (get_mass_or_adj m)) v) := by
  rw [show msgfmass_mod_dict mods =
      mods.foldl (fun d mm => alistAppend ratEqb d (pyRound 3 (get_mass_or_adj mm)) mm) []
    from rfl]
  rw [alistGetD_foldlAppend ratHeqb, alistGetD_nil, List.nil_append]

theorem msgfTokenStep_ok_iff {map : List (ℚ × List Mod)} {L S : List String}
    {site : Char × ℤ} {acc acc' : List ObsMod} {tok : List Char} :
    msgfTokenStep map L S site acc tok = .ok acc' ↔
      ∃ v m tl, pyFloat tok = some v ∧ alistFind ratEqb map v = some (m :: tl) ∧
        acc' = acc ++ [{ site := site, type := get_modtype m L S, mass := m.mass,
                         name := m.name, name_lower := m.name_lower,
                         adjusted_mass := some m.adjusted_mass }] := by
  cases hf : pyFloat tok with
  | none =>
      have hcomp : msgfTokenStep map L S site acc tok = .error .valueError := by
        simp [msgfTokenStep, hf]
      rw [hcomp]
      constructor
      · intro h
        cases h
      · rintro ⟨v', m', tl', hv', _, _⟩
        cases hv'
  | some v =>
      cases hl : alistFind ratEqb map v with
      | none =>
          have hcomp : msgfTokenStep map L S site acc tok = .error .keyError := by
            simp [msgfTokenStep, hf, hl]
          rw [hcomp]
          constructor
          · intro h
            cases h
          · rintro ⟨v', m', tl', hv', hl', _⟩
            cases hv'
            rw [hl] at hl'
            cases hl'
      | some l =>
          cases l with
          | nil =>
              have hcomp : msgfTokenStep map L S site acc tok = .error .indexError := by
                simp [msgfTokenStep, hf, hl]
              rw [hcomp]
              constructor
              · intro h
                cases h
              · rintro ⟨v', m', tl', hv', hl', _⟩
                cases hv'
                rw [hl] at hl'
                cases hl'
          | cons m tl =>
              have hcomp : msgfTokenStep map L S site acc tok =
                  .ok (acc ++ [{ site := site, type := get_modtype m L S, mass := m.mass,
                                 name := m.name, name_lower := m.name_lower,
                                 adjusted_mass := some m.adjusted_mass }]) := by
                simp [msgfTokenStep, hf, hl]
              rw [hcomp]
              constructor
              · intro h
                injection h with h
                exact ⟨v, m, tl, rfl, hl, h.symm⟩
              · rintro ⟨v', m', tl', hv', hl', hacc⟩
                cases hv'
                rw [hl] at hl'
                injection hl' with hl2
                cases hl2
                rw [hacc]

theorem msgfTokenFold_ok {map : List (ℚ × List Mod)} {L S : List String}
    {site : Char × ℤ} :
    ∀ (ts : List (List Char)) (acc acc' : List ObsMod),
      ts.foldlM (msgfTokenStep map L S site) acc = .ok acc' →
      acc'.length = acc.length + ts.length ∧
        ∀ t ∈ ts, ∃ v m tl, pyFloat t = some v ∧ alistFind ratEqb map v = some (m :: tl) := by
  intro ts
  induction ts with
  | nil =>
      intro acc acc' h
      cases h
      simp
  | cons t ts ih =>
      intro acc acc' h
      rw [List.foldlM_cons] at h
      obtain ⟨acc1, h1, h2⟩ := exceptBind_ok.mp h
      obtain ⟨v, m, tl, hv, hl, hacc1⟩ := msgfTokenStep_ok_iff.mp h1
      obtain ⟨hlen, hall⟩ := ih acc1 acc' h2
      constructor
      · rw [hlen, hacc1]
        simp
        omega
      · intro x hx
        rcases List.mem_cons.mp hx with he | hx'
        · subst he
          exact ⟨v, m, tl, hv, hl⟩
        · exact hall x hx'

theorem msgfStep_ok {msgfseq : List Char} {map : List (ℚ × List Mod)} {L S : List String}
    {st st' : MsgfState} {x : MsgfMatch}
    (h : msgfStep msgfseq map L S st x = .ok st') :
    st'.mods.length = st.mods.length + (findTokens x.g2).length ∧
      ∀ t ∈ findTokens x.g2,
        ∃ v m tl, pyFloat t = some v ∧ alistFind ratEqb map v = some (m :: tl) := by
  rw [msgfStep] at h
  cases hx : x.res with
  | some c =>
      rw [hx] at h
      dsimp only at h
      cases hgl : (st.barepep ++ pySlice msgfseq st.start (x.mstart + 1)).getLast? with
      | none =>
          rw [hgl] at h
          cases h
      | some residue =>
          rw [hgl] at h
          dsimp only at h
          cases hfold : (findTokens x.g2).foldlM
              (msgfTokenStep map L S
                (residue, ((st.barepep ++ pySlice msgfseq st.start (x.mstart + 1)).length : ℤ) - 1))
              st.mods with
          | error e => rw [hfold] at h; cases h
          | ok mods1 =>
              rw [hfold] at h
              cases h
              exact msgfTokenFold_ok _ _ _ hfold
  | none =>
      rw [hx] at h
      dsimp only at h
      cases hfold : (findTokens x.g2).foldlM
          (msgfTokenStep map L S (('[', -100) : Char × ℤ)) st.mods with
      | error e => rw [hfold] at h; cases h
      | ok mods1 =>
          rw [hfold] at h
          cases h
          exact msgfTokenFold_ok _ _ _ hfold

theorem msgfFold_ok {msgfseq : List Char} {map : List (ℚ × List Mod)} {L S : List String} :
    ∀ (xs : List MsgfMatch) (st stf : MsgfState),
      xs.foldlM (msgfStep msgfseq map L S) st = .ok stf →
      stf.mods.length = st.mods.length + (xs.flatMap (fun x => findTokens x.g2)).length ∧
        ∀ t ∈ xs.flatMap (fun x => findTokens x.g2),
          ∃ v m tl, pyFloat t = some v ∧ alistFind ratEqb map v = some (m :: tl) := by
  intro xs
  induction xs with
  | nil =>
      intro st stf h
      cases h
      simp
  | cons x xs ih =>
      intro st stf h
      rw [List.foldlM_cons] at h
      obtain ⟨st1, h1, h2⟩ := exceptBind_ok.mp h
      obtain ⟨hlen1, hall1⟩ := msgfStep_ok h1
      obtain ⟨hlen2, hall2⟩ := ih st1 stf h2
      constructor
      · rw [hlen2, hlen1]
        simp [List.flatMap_cons, List.length_append]
        omega
      · intro t ht
        rw [List.flatMap_cons, List.mem_append] at ht
        rcases ht with ht | ht
        · exact hall1 t ht
        · exact hall2 t ht

theorem msgfdict_resolves {mods : List Mod} {v : ℚ} {m : Mod} {tl : List Mod}
    (h : alistFind ratEqb (msgfmass_mod_dict mods) v = some (m :: tl)) :
    ∃ m' ∈ mods, pyRound 3 (get_mass_or_adj m') = v := by
  have hg := alistFind_eq_getD h
  rw [msgfdict_getD] at hg
  have hm : m ∈ mods.filter (fun m => ratEqb (pyRound 3 (get_mass_or_adj m)) v) := by
    rw [← hg]
    exact List.mem_cons_self _ _
  have := List.mem_filter.mp hm
  exact ⟨m, this.1, ratEqb_eq this.2⟩

theorem msgfdict_find_of_exists {mods : List Mod} {v : ℚ}
    (h : ∃ m ∈ mods, pyRound 3 (get_mass_or_adj m) = v) :
    ∃ m tl, alistFind ratEqb (msgfmass_mod_dict mods) v = some (m :: tl) := by
  obtain ⟨m, hm, hv⟩ := h
  have hmem : m ∈ alistGetD ratEqb (msgfmass_mod_dict mods) v := by
    rw [msgfdict_getD]
    exact List.mem_filter.mpr ⟨hm, by rw [hv]; exact (ratHeqb _ _).mpr rfl⟩
  cases hf : alistFind ratEqb (msgfmass_mod_dict mods) v with
  | none =>
      rw [alistGetD, hf] at hmem
      cases hmem
  | some l =>
      cases l with
      | nil =>
          rw [alistGetD, hf] at hmem
          cases hmem
      | cons a tl => exact ⟨a, tl, rfl⟩

/-- C8: `parse_msgf_peptide` resolves every signed mass-delta token by an
exact match of the parsed float against the first-tool lookup, whose keys
are the effective masses rounded to 3 decimals: if parsing succeeds, every
token's float equals `round(effectiveMass, 3)` of some catalog definition
and the PSM carries exactly one observed modification per token (nothing
is silently dropped); a token that parses to a float matching no catalog
definition makes the whole parse fail. -/
theorem C8_token_resolution (msgfseq : List Char) (mods : List Mod)
    (labileptmnames stableptmnames : List String) :
    ((parse_msgf_peptide msgfseq (msgfmass_mod_dict mods)
        labileptmnames stableptmnames).isOk = true →
      ∀ t ∈ (msgfFind msgfseq).flatMap (fun x => findTokens x.g2),
        ∃ v, pyFloat t = some v ∧ ∃ m ∈ mods, pyRound 3 (get_mass_or_adj m) = v)
    ∧ (∀ p, parse_msgf_peptide msgfseq (msgfmass_mod_dict mods)
          labileptmnames stableptmnames = .ok p →
        p.mods.length = ((msgfFind msgfseq).flatMap (fun x => findTokens x.g2)).length)
    ∧ ((∃ t ∈ (msgfFind msgfseq).flatMap (fun x => findTokens x.g2),
          ∀ v, pyFloat t = some v → ¬∃ m ∈ mods, pyRound 3 (get_mass_or_adj m) = v) →
        (parse_msgf_peptide msgfseq (msgfmass_mod_dict mods)
          labileptmnames stableptmnames).isOk = false) := by
  have hmain : ∀ p, parse_msgf_peptide msgfseq (msgfmass_mod_dict mods)
      labileptmnames stableptmnames = .ok p →
      p.mods.length = ((msgfFind msgfseq).flatMap (fun x => findTokens x.g2)).length ∧
      ∀ t ∈ (msgfFind msgfseq).flatMap (fun x => findTokens x.g2),
        ∃ v, pyFloat t = some v ∧ ∃ m ∈ mods, pyRound 3 (get_mass_or_adj m) = v := by
    intro p hp
    rw [parse_msgf_peptide] at hp
    cases hfold : (msgfFind msgfseq).foldlM
        (msgfStep msgfseq (msgfmass_mod_dict mods) labileptmnames stableptmnames)
        { barepep := [], start := 0, mods := [] } with
    | error e => rw [hfold] at hp; cases hp
    | ok stf =>
        rw [hfold] at hp
        cases hp
        obtain ⟨hlen, hall⟩ := msgfFold_ok _ _ _ hfold
        constructor
        · simpa using hlen
        · intro t ht
          obtain ⟨v, m, tl, hv, hl⟩ := hall t ht
          exact ⟨v, hv, msgfdict_resolves hl⟩
  refine ⟨?_, fun p hp => (hmain p hp).1, ?_⟩
  · intro hok
    cases hp : parse_msgf_peptide msgfseq (msgfmass_mod_dict mods)
        labileptmnames stableptmnames with
    | error e => rw [hp] at hok; cases hok
    | ok p => exact (hmain p hp).2
  · intro hbad
    cases hp : parse_msgf_peptide msgfseq (msgfmass_mod_dict mods)
        labileptmnames stableptmnames with
    | error e => rfl
    | ok p =>
        exfalso
        obtain ⟨t, ht, hb⟩ := hbad
        obtain ⟨v, hv, hres⟩ := (hmain p hp).2 t ht
        exact hb v hv hres

/-- Witness: `C8_token_resolution` on the example catalog: parsing
`S+69.966M+15.995` succeeds and both tokens resolve to catalog masses,
while `S+99.999` (a delta with no catalog entry) makes the parse fail. -/
theorem C8_token_resolution_witness :
    (∀ t ∈ (msgfFind "S+69.966M+15.995".data).flatMap (fun x => findTokens x.g2),
      ∃ v, pyFloat t = some v ∧ ∃ m ∈ exCat, pyRound 3 (get_mass_or_adj m) = v)
    ∧ (parse_msgf_peptide "S+99.999".data (msgfmass_mod_dict exCat) ["phospho"]
        ["oxidation"]).isOk = false := by
  constructor
  · exact (C8_token_resolution "S+69.966M+15.995".data exCat ["phospho"] ["oxidation"]).1
      (by with_unfolding_all decide)
  · refine (C8_token_resolution "S+99.999".data exCat ["phospho"] ["oxidation"]).2.2 ?_
    refine ⟨"+99.999".data, by with_unfolding_all decide, ?_⟩
    intro v hv
    have hc : pyFloat "+99.999".data = some (mkRat 99999 1000) :=
      beqOption_eq (fun hh => ratEqb_eq hh) (by with_unfolding_all decide)
    rw [hc] at hv
    cases hv
    rintro ⟨m, hm, he⟩
    fin_cases hm <;> exact absurd he (ratEqb_ne (by with_unfolding_all decide))

end Luciphor